import Mathlib

/-!
# Verification of the warehouse slotting optimizer (hungaro)

Shallow embedding of the core optimization pipeline: the cost model
(`funcao_custo.py`), the inertia filter (`inertia.py`), the movement
ledger and Pareto selector (`pareto_analysis.py`), the affinity
post-optimizer (`affinity_optimizer.py`) and the four orchestrator
strategies (`slotting.py`, `optimize_inertia.py`).

Modelling conventions:
* Matrices are handled in the flattened form the source itself uses
  (`matrix.flatten()`); a flattened grid is a function `ℕ → Sku` where
  `Sku` packages the classification label with its importance score —
  the two parallel numpy arrays of the source are always read, swapped
  and permuted in lockstep, so they are embedded as a single array of
  pairs.  Iteration bounds (`len(flat)`, `cols`) are explicit arguments.
* Importance scores are integers (domain 1–100 per the data model);
  costs, affinities, weights and percentages are real numbers, the
  idealization of the source's floats.  `log10 x` is `Real.logb 10 x`.
* The external assignment solver (`scipy.optimize.linear_sum_assignment`)
  is, as the specification prescribes, an opaque capability returning a
  bijection between rows and columns; the orchestrators take it as a
  function argument producing a permutation of `Fin 100` (the column
  assignment for the sorted row indices of a square matrix).
-/

/-- A slot content: the classification label paired with the importance
score.  The source keeps these in two parallel arrays which it always
reads and moves together. -/
abbrev Sku := String × ℤ

/-- A flattened grid: position `p` (a linear index) holds `g p`.  Only
positions `0 ≤ p < rows*cols` are meaningful; the functions below carry
the flattened length explicitly, as the source derives it from
`matrix.shape`. -/
abbrev GridF := ℕ → Sku

/-- The `calculate_importance_factor` from `funcao_custo.py`:
`log10(score + 1) + 1`. -/
noncomputable def calculate_importance_factor (score : ℝ) : ℝ :=
  Real.logb 10 (score + 1) + 1

/-- The `calculate_position_cost` from `funcao_custo.py`: distance from the
entrance (`1` for row 0, `row+1` otherwise) times the score times the
logarithmic amplification factor. -/
noncomputable def calculate_position_cost (row : ℕ) (importance_score : ℝ) : ℝ :=
  (if row = 0 then 1 else (row : ℝ) + 1) * importance_score *
    calculate_importance_factor importance_score

/-- The `calculate_euclidean_distance` from `funcao_custo.py`: Euclidean
distance between two linear indices interpreted as `(idx / cols, idx %
cols)` cells. -/
noncomputable def calculate_euclidean_distance (pos1_idx pos2_idx cols : ℕ) : ℝ :=
  Real.sqrt ((((pos1_idx / cols : ℕ) : ℝ) - ((pos2_idx / cols : ℕ) : ℝ)) ^ 2 +
    (((pos1_idx % cols : ℕ) : ℝ) - ((pos2_idx % cols : ℕ) : ℝ)) ^ 2)

/-- The `calculate_total_cost` from `funcao_custo.py`, on a flattened grid of
`n = rows*cols` cells: the sum over every cell of the position cost of
its row at the cell's stored score.  (The source's fallback branch for a
missing importance matrix derives default scores from the classification;
every call modelled here supplies the importance scores, which the `Sku`
pairs carry.) -/
noncomputable def calculate_total_cost (n cols : ℕ) (g : GridF) : ℝ :=
  ∑ p ∈ Finset.range n, calculate_position_cost (p / cols) (((g p).2 : ℝ))

/-- The `find_sku_position` from `affinity_optimizer.py`: scans positions
`0..n-1` and returns the first `pos` with `pos == original_sku_idx`,
falling back to `original_sku_idx` itself when the scan finds nothing. -/
def find_sku_position (n : ℕ) (g : GridF) (original_sku_idx : ℕ) : ℕ :=
  match (List.range n).find? (fun pos => pos = original_sku_idx) with
  | some pos => pos
  | none => original_sku_idx

/-- First position in `0..n-1` whose slot equals `v` — the
`for pos in range(len(flat)): if flat[pos] == sku and ...: break` scan
pattern of `pareto_analysis.py` and `inertia.py`. -/
def find_first (n : ℕ) (g : GridF) (v : Sku) : Option ℕ :=
  (List.range n).find? (fun pos => g pos = v)

/-- The `apply_inertia_constraint` from `inertia.py`: for every item flagged
by the inertial mask, add the penalty factor to every placement other
than staying put. -/
noncomputable def apply_inertia_constraint (cost_matrix : ℕ → ℕ → ℝ)
    (inertial_mask : ℕ → Bool) (penalty_factor : ℝ) : ℕ → ℕ → ℝ :=
  fun sku_idx pos_idx =>
    if inertial_mask sku_idx ∧ pos_idx ≠ sku_idx then
      cost_matrix sku_idx pos_idx + penalty_factor
    else cost_matrix sku_idx pos_idx

/-- The affinity penalty accumulated onto entry `(s, p)` of the cost
matrix by the quadruple loop of `calculate_cost_matrix`
(`funcao_custo.py` lines 161–184): for every affinity pair `(i, j)` with
`i < j` and positive affinity, and every ordered position pair
`(pos_i, pos_j)` with `pos_i ≠ pos_j`, half the penalty
`affinity × distance(pos_i,pos_j) × weight` lands on `[i, pos_i]` and
half on `[j, pos_j]`.  Written as the equivalent sum: the first summand
collects the contributions where `s` plays the `sku_i` role, the second
those where it plays the `sku_j` role. -/
noncomputable def affinity_penalty_entry (A : ℕ → ℕ → ℝ) (w : ℝ) (s p : ℕ) : ℝ :=
  (∑ t ∈ Finset.range 100, if s < t ∧ 0 < A s t then
      ∑ q ∈ Finset.range 100, (if q ≠ p then
        A s t * calculate_euclidean_distance p q 10 * w / 2 else 0)
    else 0) +
  (∑ r ∈ Finset.range 100, if r < s ∧ 0 < A r s then
      ∑ q ∈ Finset.range 100, (if q ≠ p then
        A r s * calculate_euclidean_distance q p 10 * w / 2 else 0)
    else 0)

/-- The `calculate_cost_matrix` from `funcao_custo.py` for the system's fixed
10×10 grid: entry `[i, j]` is the position cost of `j`'s row at the score
of the item currently at `i`; when an affinity matrix and a positive
weight are supplied the symmetric affinity penalty is added on top. -/
noncomputable def calculate_cost_matrix (g : GridF) (aff : Option (ℕ → ℕ → ℝ))
    (affinity_weight : ℝ) : ℕ → ℕ → ℝ :=
  let base : ℕ → ℕ → ℝ := fun i j => calculate_position_cost (j / 10) (((g i).2 : ℝ))
  match aff with
  | some A =>
      if 0 < affinity_weight then
        fun i j => base i j + affinity_penalty_entry A affinity_weight i j
      else base
  | none => base

/-- C5: `calculate_position_cost(row, score)` equals
`distance × score × (log10(score+1)+1)` with `distance = 1` for row 0 and
`row+1` otherwise, and on the documented domain (rows `0..9`, scores
`1..100`) it is strictly increasing in the row for a fixed score and
strictly increasing in the score for a fixed row. -/
theorem position_cost_formula_and_strict_mono
    (r r₁ r₂ : ℕ) (s s₁ s₂ : ℝ)
    (hr : r₁ < r₂) (hr₂ : r₂ ≤ 9)
    (hs1 : 1 ≤ s) (hs100 : s ≤ 100)
    (hs₁ : 1 ≤ s₁) (hs₁₂ : s₁ < s₂) (hs₂ : s₂ ≤ 100) :
    calculate_position_cost r s =
      (if r = 0 then 1 else (r : ℝ) + 1) * s * (Real.logb 10 (s + 1) + 1) ∧
    calculate_position_cost r₁ s < calculate_position_cost r₂ s ∧
    calculate_position_cost r s₁ < calculate_position_cost r s₂ := by
  have hb : (1 : ℝ) < 10 := by norm_num
  have factor_pos : ∀ x : ℝ, 1 ≤ x → 0 < calculate_importance_factor x := by
    intro x hx
    have : 0 ≤ Real.logb 10 (x + 1) := Real.logb_nonneg hb (by linarith)
    unfold calculate_importance_factor
    linarith
  refine ⟨rfl, ?_, ?_⟩
  · -- strictly increasing in the row: the distance strictly grows with the row
    have hd : (if r₁ = 0 then (1 : ℝ) else (r₁ : ℝ) + 1) <
        (if r₂ = 0 then (1 : ℝ) else (r₂ : ℝ) + 1) := by
      rcases Nat.eq_zero_or_pos r₁ with h1 | h1
      · have h2 : r₂ ≠ 0 := by omega
        rw [if_pos h1, if_neg h2]
        have : (1 : ℝ) ≤ (r₂ : ℝ) := by exact_mod_cast Nat.one_le_iff_ne_zero.mpr h2
        linarith
      · have h1' : r₁ ≠ 0 := by omega
        have h2 : r₂ ≠ 0 := by omega
        simp only [if_neg h1', if_neg h2]
        have : (r₁ : ℝ) < (r₂ : ℝ) := by exact_mod_cast hr
        linarith
    have hsf : 0 < s * calculate_importance_factor s :=
      mul_pos (by linarith) (factor_pos s hs1)
    unfold calculate_position_cost
    calc (if r₁ = 0 then (1:ℝ) else (r₁ : ℝ) + 1) * s * calculate_importance_factor s
        = (if r₁ = 0 then (1:ℝ) else (r₁ : ℝ) + 1) * (s * calculate_importance_factor s) := by
          ring
      _ < (if r₂ = 0 then (1:ℝ) else (r₂ : ℝ) + 1) * (s * calculate_importance_factor s) :=
          mul_lt_mul_of_pos_right hd hsf
      _ = (if r₂ = 0 then (1:ℝ) else (r₂ : ℝ) + 1) * s * calculate_importance_factor s := by
          ring
  · -- strictly increasing in the score
    have hd_pos : 0 < (if r = 0 then (1 : ℝ) else (r : ℝ) + 1) := by
      rcases Nat.eq_zero_or_pos r with h | h
      · simp [h]
      · have h' : r ≠ 0 := by omega
        simp only [if_neg h']
        positivity
    have hf₁ : 0 < calculate_importance_factor s₁ := factor_pos s₁ hs₁
    have hf₁₂ : calculate_importance_factor s₁ ≤ calculate_importance_factor s₂ := by
      unfold calculate_importance_factor
      have := Real.logb_le_logb_of_le hb (x := s₁ + 1) (y := s₂ + 1)
        (by linarith) (by linarith)
      linarith
    have key : s₁ * calculate_importance_factor s₁ < s₂ * calculate_importance_factor s₂ := by
      calc s₁ * calculate_importance_factor s₁
          < s₂ * calculate_importance_factor s₁ :=
            mul_lt_mul_of_pos_right hs₁₂ hf₁
        _ ≤ s₂ * calculate_importance_factor s₂ :=
            mul_le_mul_of_nonneg_left hf₁₂ (by linarith)
    unfold calculate_position_cost
    calc (if r = 0 then (1:ℝ) else (r : ℝ) + 1) * s₁ * calculate_importance_factor s₁
        = (if r = 0 then (1:ℝ) else (r : ℝ) + 1) * (s₁ * calculate_importance_factor s₁) := by
          ring
      _ < (if r = 0 then (1:ℝ) else (r : ℝ) + 1) * (s₂ * calculate_importance_factor s₂) :=
          mul_lt_mul_of_pos_left key hd_pos
      _ = (if r = 0 then (1:ℝ) else (r : ℝ) + 1) * s₂ * calculate_importance_factor s₂ := by
          ring

/-- Witness for C5 at rows 0 < 1 and scores 5 < 7. -/
theorem position_cost_formula_and_strict_mono_witness :
    calculate_position_cost 0 5 =
      (if (0:ℕ) = 0 then 1 else ((0:ℕ) : ℝ) + 1) * 5 * (Real.logb 10 (5 + 1) + 1) ∧
    calculate_position_cost 0 5 < calculate_position_cost 1 5 ∧
    calculate_position_cost 0 5 < calculate_position_cost 0 7 :=
  position_cost_formula_and_strict_mono 0 0 1 5 5 7
    (by norm_num) (by norm_num) (by norm_num) (by norm_num)
    (by norm_num) (by norm_num) (by norm_num)

/-- C10: `find_sku_position` returns its input index unchanged — the scan
compares the loop index with the requested index, never the matrix
contents, and the fallback also returns the requested index, so the
affinity refinement always treats an item's original linear index as its
current position. -/
theorem find_sku_position_eq_index (n : ℕ) (g : GridF) (k : ℕ) :
    find_sku_position n g k = k := by
  unfold find_sku_position
  rcases h : (List.range n).find? (fun pos => pos = k) with _ | p
  · rfl
  · have := List.find?_some h
    simpa using this

/-- C7: `apply_inertia_constraint` (with a non-negative penalty factor,
the source's default being 1000) leaves every diagonal entry unchanged,
never decreases any off-diagonal entry, leaves the whole row of every
item not flagged inertial unchanged, and adds exactly the penalty factor
to every off-diagonal entry of a flagged item's row. -/
theorem apply_inertia_constraint_spec (c : ℕ → ℕ → ℝ) (mask : ℕ → Bool)
    (penalty : ℝ) (hp : 0 ≤ penalty) :
    (∀ s, apply_inertia_constraint c mask penalty s s = c s s) ∧
    (∀ s p, p ≠ s → c s p ≤ apply_inertia_constraint c mask penalty s p) ∧
    (∀ s, mask s = false → ∀ p, apply_inertia_constraint c mask penalty s p = c s p) ∧
    (∀ s, mask s = true → ∀ p, p ≠ s →
      apply_inertia_constraint c mask penalty s p = c s p + penalty) := by
  refine ⟨?_, ?_, ?_, ?_⟩
  · intro s
    simp [apply_inertia_constraint]
  · intro s p hps
    by_cases hm : mask s
    · unfold apply_inertia_constraint
      rw [if_pos ⟨hm, hps⟩]
      linarith
    · simp [apply_inertia_constraint, hm]
  · intro s hm p
    simp [apply_inertia_constraint, hm]
  · intro s hm p hps
    simp [apply_inertia_constraint, hm, hps]

/-- Witness for C7 at the source's default penalty factor 1000, a
constant-zero cost matrix and the mask flagging only item 0. -/
theorem apply_inertia_constraint_spec_witness :
    (∀ s, apply_inertia_constraint (fun _ _ => 0) (fun i => i = 0) 1000 s s =
      (fun _ _ => (0:ℝ)) s s) ∧
    (∀ s p, p ≠ s → (fun _ _ => (0:ℝ)) s p ≤
      apply_inertia_constraint (fun _ _ => 0) (fun i => i = 0) 1000 s p) ∧
    (∀ s, (fun i => decide (i = 0)) s = false → ∀ p,
      apply_inertia_constraint (fun _ _ => 0) (fun i => i = 0) 1000 s p =
        (fun _ _ => (0:ℝ)) s p) ∧
    (∀ s, (fun i => decide (i = 0)) s = true → ∀ p, p ≠ s →
      apply_inertia_constraint (fun _ _ => 0) (fun i => i = 0) 1000 s p =
        (fun _ _ => (0:ℝ)) s p + 1000) :=
  apply_inertia_constraint_spec (fun _ _ => 0) (fun i => i = 0) 1000 (by norm_num)

/-- C6: with affinity disabled (no affinity matrix, or a non-positive
affinity weight) every entry `[i, j]` of `calculate_cost_matrix` is the
position cost of `j`'s row at the score of the item at `i`; consequently
two target columns lying in the same grid row produce identical entries
in every row of the matrix. -/
theorem cost_matrix_base_entries (g : GridF) (aff : Option (ℕ → ℕ → ℝ))
    (w : ℝ) (hdis : aff = none ∨ w ≤ 0) :
    (∀ i j, calculate_cost_matrix g aff w i j =
      calculate_position_cost (j / 10) (((g i).2 : ℝ))) ∧
    (∀ i j₁ j₂, j₁ / 10 = j₂ / 10 →
      calculate_cost_matrix g aff w i j₁ = calculate_cost_matrix g aff w i j₂) := by
  have hbase : ∀ i j, calculate_cost_matrix g aff w i j =
      calculate_position_cost (j / 10) (((g i).2 : ℝ)) := by
    intro i j
    rcases hdis with h | h
    · subst h; rfl
    · rcases aff with _ | A
      · rfl
      · have : ¬ (0 < w) := not_lt.mpr h
        simp [calculate_cost_matrix, this]
  refine ⟨hbase, fun i j₁ j₂ hrow => ?_⟩
  rw [hbase i j₁, hbase i j₂, hrow]

/-- Witness for C6 with no affinity matrix on the constant grid of score
7: entries 0 and 13 (both row 0 columns) agree. -/
theorem cost_matrix_base_entries_witness :
    (∀ i j, calculate_cost_matrix (fun _ => ("A", 7)) none 0 i j =
      calculate_position_cost (j / 10) ((((fun _ => (("A", 7) : Sku)) i).2 : ℝ))) ∧
    (∀ i j₁ j₂, j₁ / 10 = j₂ / 10 →
      calculate_cost_matrix (fun _ => ("A", 7)) none 0 i j₁ =
        calculate_cost_matrix (fun _ => ("A", 7)) none 0 i j₂) :=
  cost_matrix_base_entries (fun _ => ("A", 7)) none 0 (Or.inl rfl)

/-- A movement record (`pareto_analysis.calculate_movement_gains`):
one item's transition from its original to its optimized position.
Positions are linear indices as in the source. -/
structure Movement where
  sku_classification : String
  importance_score : ℤ
  original_position : ℕ
  optimized_position : ℕ
  original_row : ℕ
  optimized_row : ℕ
  original_cost : ℝ
  optimized_cost : ℝ
  gain : ℝ
  gain_percentage : ℝ

/-- The movement record `calculate_movement_gains` appends for an item
found at `orig_pos` in the original grid and matched at `opt_pos` in the
optimized grid. -/
noncomputable def make_movement (cols : ℕ) (g : GridF) (orig_pos opt_pos : ℕ) : Movement :=
  let importance_score := (g orig_pos).2
  let original_cost := calculate_position_cost (orig_pos / cols) ((importance_score : ℝ))
  let optimized_cost := calculate_position_cost (opt_pos / cols) ((importance_score : ℝ))
  let gain := original_cost - optimized_cost
  { sku_classification := (g orig_pos).1
    importance_score := importance_score
    original_position := orig_pos
    optimized_position := opt_pos
    original_row := orig_pos / cols
    optimized_row := opt_pos / cols
    original_cost := original_cost
    optimized_cost := optimized_cost
    gain := gain
    gain_percentage := if 0 < original_cost then gain / original_cost * 100 else 0 }

/-- The `calculate_movement_gains` from `pareto_analysis.py` on flattened
grids of length `n`: for each original position, match the first
optimized position holding the identical (classification, score) pair,
record a movement when the item moved, then sort descending by raw gain
(a stable sort, as Python's `list.sort(..., reverse=True)`). -/
noncomputable def calculate_movement_gains (n cols : ℕ) (g g' : GridF) : List Movement :=
  ((List.range n).filterMap (fun orig_pos =>
    match find_first n g' (g orig_pos) with
    | some opt_pos =>
        if orig_pos ≠ opt_pos then some (make_movement cols g orig_pos opt_pos) else none
    | none => none)).mergeSort (fun a b => decide (b.gain ≤ a.gain))

/-- Statistics returned by `identify_pareto_critical_movements`.  (In the
empty-input branch the source dict omits the two percentage keys; they
are modelled as 0 there.) -/
structure ParetoStats where
  total_movements : ℕ
  critical_movements : ℕ
  critical_percentage : ℝ
  total_gain : ℝ
  critical_gain : ℝ
  critical_gain_percentage : ℝ
  target_percentage : ℝ

/-- The accumulation loop of `identify_pareto_critical_movements`: walk
the movement list in order, taking a movement (and adding its gain to the
accumulator) while the accumulated gain is still below the target, and
stopping at the first movement where it is not. -/
noncomputable def take_critical (target_gain : ℝ) :
    List Movement → ℝ → List Movement × ℝ
  | [], accumulated => ([], accumulated)
  | m :: rest, accumulated =>
      if accumulated < target_gain then
        let r := take_critical target_gain rest (accumulated + m.gain)
        (m :: r.1, r.2)
      else ([], accumulated)

/-- The `identify_pareto_critical_movements` from `pareto_analysis.py`:
select a prefix of the (gain-descending) movement list accumulating
gain until the target `total_gain × target_percentage/100` is reached. -/
noncomputable def identify_pareto_critical_movements (movements : List Movement)
    (target_percentage : ℝ) : List Movement × ParetoStats :=
  match movements with
  | [] => ([], { total_movements := 0, critical_movements := 0, critical_percentage := 0,
                 total_gain := 0, critical_gain := 0, critical_gain_percentage := 0,
                 target_percentage := target_percentage })
  | _ :: _ =>
      let total_gain := (movements.map Movement.gain).sum
      let target_gain := total_gain * (target_percentage / 100)
      let r := take_critical target_gain movements 0
      (r.1, { total_movements := movements.length
              critical_movements := r.1.length
              critical_percentage := (r.1.length : ℝ) / (movements.length : ℝ) * 100
              total_gain := total_gain
              critical_gain := r.2
              critical_gain_percentage :=
                if 0 < total_gain then r.2 / total_gain * 100 else 0
              target_percentage := target_percentage })

/-- The `identify_inertial_skus` from `inertia.py` on flattened grids: for
each original position, match the item in the optimized grid
(first-match scan), compute the percentage gain of its movement (0 when
the original cost is 0) and flag the item inertial when that percentage
is below the threshold.  Returns the mask and the flagged count. -/
noncomputable def identify_inertial_skus (n cols : ℕ) (g g' : GridF)
    (gain_threshold_pct : ℝ) : (ℕ → Bool) × ℕ :=
  let mask : ℕ → Bool := fun orig_pos =>
    match find_first n g' (g orig_pos) with
    | some opt_pos =>
        let importance_score := ((g orig_pos).2 : ℝ)
        let original_cost := calculate_position_cost (orig_pos / cols) importance_score
        let optimized_cost := calculate_position_cost (opt_pos / cols) importance_score
        let gain := original_cost - optimized_cost
        let gain_pct := if 0 < original_cost then gain / original_cost * 100 else 0
        decide (gain_pct < gain_threshold_pct)
    | none => false
  (mask, ((List.range n).filter mask).length)

/-- The cost-comparison fields of `get_optimization_stats`
(`slotting.py`; the per-row classification counts the source also stores
in the dict are presentation data not modelled here). -/
structure OptimizationStats where
  original_cost : ℝ
  optimized_cost : ℝ
  cost_reduction : ℝ
  improvement_percentage : ℝ

/-- The `get_optimization_stats` from `slotting.py`: total costs before and
after, their difference, and the percentage improvement (0 when the
original cost is 0). -/
noncomputable def get_optimization_stats (n cols : ℕ) (g g' : GridF) : OptimizationStats :=
  let original_cost := calculate_total_cost n cols g
  let optimized_cost := calculate_total_cost n cols g'
  let improvement :=
    if 0 < original_cost then (original_cost - optimized_cost) / original_cost * 100 else 0
  { original_cost := original_cost
    optimized_cost := optimized_cost
    cost_reduction := original_cost - optimized_cost
    improvement_percentage := improvement }

/-- A movement record carrying only a gain, for exercising the Pareto
selector on concrete inputs. -/
def simple_movement (gain : ℝ) : Movement :=
  { sku_classification := "A", importance_score := 0, original_position := 0,
    optimized_position := 0, original_row := 0, optimized_row := 0,
    original_cost := 0, optimized_cost := 0, gain := gain, gain_percentage := 0 }

@[simp] theorem simple_movement_gain (x : ℝ) : (simple_movement x).gain = x := rfl

/-- C3 counterexample: on the gain-descending list with gains
`[5, 3, -4]` and `target_percentage = 100`, the selector stops after the
first movement (accumulated gain 5 already reaches the total gain 4), so
the movement with positive gain 3 — which the claim says must be
returned — is not in the selected subset. -/
theorem pareto_target100_counterexample :
    0 < (simple_movement 3).gain ∧
    simple_movement 3 ∈
      [simple_movement 5, simple_movement 3, simple_movement (-4)] ∧
    List.Pairwise (fun a b => b.gain ≤ a.gain)
      [simple_movement 5, simple_movement 3, simple_movement (-4)] ∧
    simple_movement 3 ∉ (identify_pareto_critical_movements
      [simple_movement 5, simple_movement 3, simple_movement (-4)] 100).1 := by
  have hres : (identify_pareto_critical_movements
      [simple_movement 5, simple_movement 3, simple_movement (-4)] 100).1
      = [simple_movement 5] := by
    have hsum : (List.map Movement.gain
        [simple_movement 5, simple_movement 3, simple_movement (-4)]).sum = 4 := by
      simp; norm_num
    simp only [identify_pareto_critical_movements, hsum]
    norm_num [take_critical]
  refine ⟨by norm_num, by simp, ?_, ?_⟩
  · norm_num [List.pairwise_cons]
  · rw [hres]
    intro hmem
    have h := List.mem_singleton.mp hmem
    have := congrArg Movement.gain h
    simp at this

/-- On a gain-descending list of non-negative gains, the accumulation
loop with target `acc + Σ gains` takes exactly the positive-gain prefix. -/
theorem take_critical_nonneg_sorted (l : List Movement)
    (hsorted : List.Pairwise (fun a b => b.gain ≤ a.gain) l)
    (hnonneg : ∀ m ∈ l, 0 ≤ m.gain) (acc : ℝ) :
    take_critical (acc + (l.map Movement.gain).sum) l acc
      = (l.filter (fun m => decide (0 < m.gain)),
         acc + ((l.filter (fun m => decide (0 < m.gain))).map Movement.gain).sum) := by
  induction l generalizing acc with
  | nil => simp [take_critical]
  | cons m rest ih =>
      rcases List.pairwise_cons.mp hsorted with ⟨hhead, htail⟩
      have hm : 0 ≤ m.gain := hnonneg m (List.mem_cons_self m rest)
      have hrest_nonneg : ∀ x ∈ rest, 0 ≤ x.gain :=
        fun x hx => hnonneg x (List.mem_cons_of_mem m hx)
      by_cases hpos : 0 < m.gain
      · have hsum_rest : 0 ≤ (rest.map Movement.gain).sum := by
          apply List.sum_nonneg
          intro x hx
          rcases List.mem_map.mp hx with ⟨y, hy, rfl⟩
          exact hrest_nonneg y hy
        have hcond : acc < acc + ((m :: rest).map Movement.gain).sum := by
          simp only [List.map_cons, List.sum_cons]
          linarith
        rw [take_critical, if_pos hcond]
        have htarget : acc + ((m :: rest).map Movement.gain).sum
            = (acc + m.gain) + (rest.map Movement.gain).sum := by
          simp only [List.map_cons, List.sum_cons]; ring
        rw [htarget, ih htail hrest_nonneg (acc + m.gain)]
        have hfil : List.filter (fun x => decide (0 < x.gain)) (m :: rest)
            = m :: List.filter (fun x => decide (0 < x.gain)) rest := by
          simp [List.filter_cons, hpos]
        rw [hfil]
        simp only [List.map_cons, List.sum_cons, Prod.mk.injEq]
        exact ⟨trivial, by ring⟩
      · -- head gain is 0, so by sortedness every gain is 0 and nothing is taken
        have hm0 : m.gain = 0 := le_antisymm (not_lt.mp hpos) hm
        have hrest0 : ∀ x ∈ rest, x.gain = 0 := by
          intro x hx
          have h1 : x.gain ≤ m.gain := hhead x hx
          have h2 : 0 ≤ x.gain := hrest_nonneg x hx
          rw [hm0] at h1
          linarith
        have hsum0 : ((m :: rest).map Movement.gain).sum = 0 := by
          apply List.sum_eq_zero
          intro x hx
          rcases List.mem_map.mp hx with ⟨y, hy, rfl⟩
          rcases List.mem_cons.mp hy with rfl | hy'
          · exact hm0
          · exact hrest0 y hy'
        have hfilter : (m :: rest).filter (fun x => decide (0 < x.gain)) = [] := by
          rw [List.filter_eq_nil_iff]
          intro x hx
          rcases List.mem_cons.mp hx with rfl | hx'
          · simp [hm0]
          · simp [hrest0 x hx']
        have hcond : ¬ acc < acc + ((m :: rest).map Movement.gain).sum := by
          rw [hsum0]; simp
        rw [take_critical, if_neg hcond, hfilter]
        simp [hsum0]

/-- C3 (amended): for a gain-descending movement list, (a) with
`target_percentage = 100` and no negative gains the selector returns
exactly the positive-gain movements, in order; (b) with
`target_percentage = 0` it returns an empty subset with zero selected
count and zero accumulated critical gain; (c) likewise whenever the total
gain is non-positive (and the target percentage non-negative).  The
returned stats still report the actual movement count and total gain, so
they are "zeroed" only in their critical-selection fields. -/
theorem pareto_selector_amended (movements : List Movement) (target_percentage : ℝ)
    (hsorted : List.Pairwise (fun a b => b.gain ≤ a.gain) movements) :
    ((∀ m ∈ movements, 0 ≤ m.gain) →
      (identify_pareto_critical_movements movements 100).1
        = movements.filter (fun m => decide (0 < m.gain))) ∧
    ((identify_pareto_critical_movements movements 0).1 = [] ∧
     (identify_pareto_critical_movements movements 0).2.critical_movements = 0 ∧
     (identify_pareto_critical_movements movements 0).2.critical_gain = 0) ∧
    ((movements.map Movement.gain).sum ≤ 0 → 0 ≤ target_percentage →
      (identify_pareto_critical_movements movements target_percentage).1 = [] ∧
      (identify_pareto_critical_movements movements target_percentage).2.critical_movements = 0 ∧
      (identify_pareto_critical_movements movements target_percentage).2.critical_gain = 0) := by
  refine ⟨?_, ?_, ?_⟩
  · intro hnonneg
    cases movements with
    | nil => simp [identify_pareto_critical_movements]
    | cons m rest =>
        simp only [identify_pareto_critical_movements]
        have h100 : ((List.map Movement.gain (m :: rest)).sum) * ((100:ℝ) / 100)
            = 0 + ((m :: rest).map Movement.gain).sum := by
          norm_num
        rw [h100, take_critical_nonneg_sorted (m :: rest) hsorted hnonneg 0]
  · cases movements with
    | nil => simp [identify_pareto_critical_movements]
    | cons m rest =>
        simp only [identify_pareto_critical_movements]
        have h0 : ((List.map Movement.gain (m :: rest)).sum) * ((0:ℝ) / 100) = 0 := by
          norm_num
        rw [h0]
        have hcond : ¬ (0:ℝ) < 0 := lt_irrefl 0
        rw [take_critical, if_neg hcond]
        simp
  · intro htot hpct
    cases movements with
    | nil => simp [identify_pareto_critical_movements]
    | cons m rest =>
        simp only [identify_pareto_critical_movements]
        have htarget : ((List.map Movement.gain (m :: rest)).sum) * (target_percentage / 100) ≤ 0 :=
          mul_nonpos_of_nonpos_of_nonneg htot (by positivity)
        have hcond : ¬ (0:ℝ) < ((List.map Movement.gain (m :: rest)).sum) * (target_percentage / 100) :=
          not_lt.mpr htarget
        rw [take_critical, if_neg hcond]
        simp

/-- Witness for the amended C3 at the sorted non-negative list with gains
`[2, 1]` (clause (a)) and the list `[-1]` with target 50 (clause (c)). -/
theorem pareto_selector_amended_witness :
    ((identify_pareto_critical_movements [simple_movement 2, simple_movement 1] 100).1
      = [simple_movement 2, simple_movement 1].filter (fun m => decide (0 < m.gain))) ∧
    ((identify_pareto_critical_movements [simple_movement (-1)] 50).1 = [] ∧
     (identify_pareto_critical_movements [simple_movement (-1)] 50).2.critical_movements = 0 ∧
     (identify_pareto_critical_movements [simple_movement (-1)] 50).2.critical_gain = 0) := by
  have h1 := (pareto_selector_amended [simple_movement 2, simple_movement 1] 100
    (by norm_num [List.pairwise_cons])).1
  have h2 := (pareto_selector_amended [simple_movement (-1)] 50
    (by norm_num [List.pairwise_cons])).2.2
  refine ⟨h1 ?_, h2 ?_ (by norm_num)⟩
  · intro m hm
    rcases List.mem_cons.mp hm with rfl | hm'
    · norm_num
    · have h := List.mem_singleton.mp hm'
      subst h
      norm_num
  · norm_num

/-- C9: every percentage ratio in the pipeline is 0 (and defined) when
its denominator is 0: (a) movement records produced by
`calculate_movement_gains` carry `gain_percentage = 0` whenever their
original position cost is 0; (b) `identify_inertial_skus` computes a
zero gain percentage when the matched item's original position cost is 0
(so the item is flagged exactly when `0 < threshold`); (c)
`get_optimization_stats` reports a zero improvement percentage when the
original total cost is 0.  All three embedded functions are total, so no
zero denominator can raise an error. -/
theorem division_by_zero_guards (n cols : ℕ) (g g' : GridF) (thr : ℝ) :
    (∀ m ∈ calculate_movement_gains n cols g g',
      m.original_cost = 0 → m.gain_percentage = 0) ∧
    (∀ op pp, find_first n g' (g op) = some pp →
      calculate_position_cost (op / cols) (((g op).2 : ℝ)) = 0 →
      (identify_inertial_skus n cols g g' thr).1 op = decide ((0:ℝ) < thr)) ∧
    (calculate_total_cost n cols g = 0 →
      (get_optimization_stats n cols g g').improvement_percentage = 0) := by
  refine ⟨?_, ?_, ?_⟩
  · intro m hm h0
    unfold calculate_movement_gains at hm
    rw [List.mem_mergeSort] at hm
    rcases List.mem_filterMap.mp hm with ⟨op, _, hf⟩
    rcases hfind : find_first n g' (g op) with _ | pp
    · rw [hfind] at hf
      simp at hf
    · rw [hfind] at hf
      by_cases hne : op = pp
      · rw [hne] at hf
        simp at hf
      · have hf' : make_movement cols g op pp = m := by
          have := hf
          simp only [ne_eq, hne, not_false_eq_true, if_true] at this
          exact Option.some.inj this
        subst hf'
        simp only [make_movement] at h0 ⊢
        rw [h0]
        simp
  · intro op pp hfind h0
    simp only [identify_inertial_skus, hfind, h0]
    norm_num
  · intro h0
    simp only [get_optimization_stats, h0]
    norm_num

/-- Witness for C9 on the 1×2 grid whose items all carry score 0 (so
every position cost, and the total cost, is 0). -/
theorem division_by_zero_guards_witness :
    (make_movement 1 (fun _ => ("A", 0)) 1 0).gain_percentage = 0 ∧
    (identify_inertial_skus 2 1 (fun _ => ("A", 0)) (fun _ => ("A", 0)) 1).1 1
      = decide ((0:ℝ) < 1) ∧
    (get_optimization_stats 2 1 (fun _ => ("A", 0))
      (fun _ => ("A", 0))).improvement_percentage = 0 := by
  obtain ⟨ha, hb, hc⟩ :=
    division_by_zero_guards 2 1 (fun _ => ("A", 0)) (fun _ => ("A", 0)) 1
  have hfind : find_first 2 (fun _ => ("A", 0)) ((fun _ => (("A", 0) : Sku)) 1)
      = some 0 := rfl
  have hcost : calculate_position_cost (1 / 1)
      ((((fun _ => (("A", 0) : Sku)) 1).2 : ℝ)) = 0 := by
    simp [calculate_position_cost]
  have hmem : make_movement 1 (fun _ => ("A", 0)) 1 0 ∈
      calculate_movement_gains 2 1 (fun _ => ("A", 0)) (fun _ => ("A", 0)) := by
    unfold calculate_movement_gains
    rw [List.mem_mergeSort]
    apply List.mem_filterMap.mpr
    refine ⟨1, by simp, ?_⟩
    rw [hfind]
    simp
  have hoc : (make_movement 1 (fun _ => ("A", 0)) 1 0).original_cost = 0 := by
    simp [make_movement, calculate_position_cost]
  refine ⟨ha _ hmem hoc, hb 1 0 hfind hcost, hc ?_⟩
  simp [calculate_total_cost, calculate_position_cost]

/-- The multiset of (classification, score) pairs stored in the first
`n` positions of a flattened grid. -/
def gridMultiset (n : ℕ) (g : GridF) : Multiset Sku :=
  ((List.range n).map g : List Sku)

/-- Precomposing a grid with a permutation of `ℕ` that maps `[0, n)` onto
itself leaves its multiset of stored pairs unchanged. -/
theorem gridMultiset_comp_perm (n : ℕ) (g : GridF) (e : Equiv.Perm ℕ)
    (he : ∀ p, p < n ↔ e p < n) :
    gridMultiset n (fun p => g (e p)) = gridMultiset n g := by
  unfold gridMultiset
  rw [Multiset.coe_eq_coe]
  have hmm : (List.range n).map (fun p => g (e p)) = ((List.range n).map e).map g := by
    rw [List.map_map]
    rfl
  rw [hmm]
  have hperm : List.Perm ((List.range n).map e) (List.range n) := by
    apply List.perm_of_nodup_nodup_toFinset_eq
    · exact (List.nodup_range n).map e.injective
    · exact List.nodup_range n
    · ext q
      simp only [List.mem_toFinset, List.mem_map, List.mem_range]
      constructor
      · rintro ⟨p, hpn, rfl⟩
        exact (he p).mp hpn
      · intro hq
        refine ⟨e.symm q, ?_, e.apply_symm_apply q⟩
        have := he (e.symm q)
        rw [e.apply_symm_apply] at this
        exact this.mpr hq
  exact hperm.map g

/-- The `Equiv.swap i j` with `i, j < n` maps `[0, n)` onto itself. -/
theorem swap_preserves_lt (n i j : ℕ) (hi : i < n) (hj : j < n) :
    ∀ p, p < n ↔ Equiv.swap i j p < n := by
  intro p
  rcases eq_or_ne p i with rfl | hpi
  · rw [Equiv.swap_apply_left]
    exact ⟨fun _ => hj, fun _ => hi⟩
  · rcases eq_or_ne p j with rfl | hpj
    · rw [Equiv.swap_apply_right]
      exact ⟨fun _ => hi, fun _ => hj⟩
    · rw [Equiv.swap_apply_of_ne_of_ne hpi hpj]

/-- A successful `find_first` scan returns an in-range position holding
the sought pair. -/
theorem find_first_mem (n : ℕ) (g : GridF) (v : Sku) (p : ℕ)
    (h : find_first n g v = some p) : p < n ∧ g p = v := by
  unfold find_first at h
  constructor
  · have := List.mem_of_find?_eq_some h
    exact List.mem_range.mp this
  · have := List.find?_some h
    simpa using this

/-- When the sought pair occurs at a unique in-range position, the
`find_first` scan returns exactly that position. -/
theorem find_first_eq_some_of_unique (n : ℕ) (g : GridF) (v : Sku) (p : ℕ)
    (hpn : p < n) (hgp : g p = v) (huniq : ∀ q, q < n → g q = v → q = p) :
    find_first n g v = some p := by
  rcases h : find_first n g v with _ | q
  · exfalso
    unfold find_first at h
    have := List.find?_eq_none.mp h p (List.mem_range.mpr hpn)
    simp [hgp] at this
  · obtain ⟨hqn, hgq⟩ := find_first_mem n g v q h
    rw [huniq q hqn hgq]

/-- One step of `apply_critical_movements_only` (`pareto_analysis.py`):
look up the moved item of the original grid, locate it in the current
grid by content match, and swap it with the occupant of the movement's
target position (when it is not already there). -/
def apply_critical_step (original : GridF) (n : ℕ) (flat : GridF) (m : Movement) : GridF :=
  let sku_to_move := original m.original_position
  match find_first n flat sku_to_move with
  | some current_pos =>
      if current_pos ≠ m.optimized_position then
        fun p => flat (Equiv.swap current_pos m.optimized_position p)
      else flat
  | none => flat

/-- The `apply_critical_movements_only` from `pareto_analysis.py`: starting
from the original grid, apply each critical movement as a pairwise swap.
(The `inertial_mask` argument of the source is unused there; the counts
it also returns are `len(critical_movements)` and `0`.) -/
def apply_critical_movements_only (n : ℕ) (original : GridF)
    (critical : List Movement) : GridF :=
  critical.foldl (apply_critical_step original n) original

/-- Invariant of the critical-movement fold: starting from any
permutation state of an injective original grid, the fold (1) stays a
permutation of the original, (2) lands every processed movement's item
at that movement's target, and (3) does not disturb positions that are
no movement's target and hold no movement's item. -/
theorem apply_critical_foldl_spec (n : ℕ) (original : GridF)
    (hinj : ∀ p q, p < n → q < n → original p = original q → p = q)
    (todo : List Movement) (R : GridF) (e : Equiv.Perm ℕ)
    (he : ∀ p, p < n ↔ e p < n)
    (hRe : ∀ p, R p = original (e p))
    (hb : ∀ m ∈ todo, m.original_position < n ∧ m.optimized_position < n)
    (ho : todo.Pairwise (fun a b => a.original_position ≠ b.original_position))
    (hp : todo.Pairwise (fun a b => a.optimized_position ≠ b.optimized_position)) :
    (∃ e' : Equiv.Perm ℕ, (∀ p, p < n ↔ e' p < n) ∧
      ∀ p, (todo.foldl (apply_critical_step original n) R) p = original (e' p)) ∧
    (∀ m ∈ todo,
      (todo.foldl (apply_critical_step original n) R) m.optimized_position
        = original m.original_position) ∧
    (∀ q, (∀ m ∈ todo, R q ≠ original m.original_position ∧ q ≠ m.optimized_position) →
      (todo.foldl (apply_critical_step original n) R) q = R q) := by
  induction todo generalizing R e with
  | nil =>
      refine ⟨⟨e, he, hRe⟩, ?_, ?_⟩
      · intro m hm; exact absurd hm (List.not_mem_nil m)
      · intro q _; rfl
  | cons m rest ih =>
      obtain ⟨hmo, hmt⟩ := hb m (List.mem_cons_self m rest)
      have hb_rest : ∀ m' ∈ rest, m'.original_position < n ∧ m'.optimized_position < n :=
        fun m' hm' => hb m' (List.mem_cons_of_mem m hm')
      obtain ⟨ho_head, ho_rest⟩ := List.pairwise_cons.mp ho
      obtain ⟨hp_head, hp_rest⟩ := List.pairwise_cons.mp hp
      -- the item to move sits at the unique position `e.symm m.original_position`
      set pos₀ := e.symm m.original_position with hpos₀
      have hRpos₀ : R pos₀ = original m.original_position := by
        rw [hRe, hpos₀, e.apply_symm_apply]
      have hpos₀n : pos₀ < n := by
        have := he pos₀
        rw [hpos₀, e.apply_symm_apply] at this
        exact this.mpr hmo
      have hfind : find_first n R (original m.original_position) = some pos₀ := by
        apply find_first_eq_some_of_unique n R _ pos₀ hpos₀n hRpos₀
        intro q hqn hgq
        rw [hRe] at hgq
        have heq : e q = m.original_position :=
          hinj (e q) m.original_position ((he q).mp hqn) hmo hgq
        rw [hpos₀, ← heq, e.symm_apply_apply]
      -- the state after processing `m`
      set R' := apply_critical_step original n R m with hR'
      have hstep : (∃ e₁ : Equiv.Perm ℕ, (∀ p, p < n ↔ e₁ p < n) ∧
          (∀ p, R' p = original (e₁ p))) ∧
          R' m.optimized_position = original m.original_position ∧
          (∀ q, q ≠ pos₀ → q ≠ m.optimized_position → R' q = R q) := by
        rw [hR']
        simp only [apply_critical_step, hfind]
        by_cases hne : pos₀ ≠ m.optimized_position
        · rw [if_pos hne]
          refine ⟨⟨(Equiv.swap pos₀ m.optimized_position).trans e, ?_, ?_⟩, ?_, ?_⟩
          · intro p
            have h1 := swap_preserves_lt n pos₀ m.optimized_position hpos₀n hmt p
            have h2 := he (Equiv.swap pos₀ m.optimized_position p)
            simpa using h1.trans h2
          · intro p
            rw [hRe]
            rfl
          · rw [Equiv.swap_apply_right]
            exact hRpos₀
          · intro q hq1 hq2
            rw [Equiv.swap_apply_of_ne_of_ne hq1 hq2]
        · rw [if_neg hne]
          push_neg at hne
          refine ⟨⟨e, he, hRe⟩, ?_, fun q _ _ => rfl⟩
          rw [← hne]
          exact hRpos₀
      obtain ⟨⟨e₁, he₁, hRe₁⟩, hplaced, hframe⟩ := hstep
      have hfold : (m :: rest).foldl (apply_critical_step original n) R
          = rest.foldl (apply_critical_step original n) R' := by
        rw [List.foldl_cons]
      obtain ⟨ih1, ih2, ih3⟩ := ih R' e₁ he₁ hRe₁ hb_rest ho_rest hp_rest
      refine ⟨?_, ?_, ?_⟩
      · rw [hfold]; exact ih1
      · intro m' hm'
        rcases List.mem_cons.mp hm' with rfl | hm''
        · rw [hfold]
          have hkeep : rest.foldl (apply_critical_step original n) R' m'.optimized_position
              = R' m'.optimized_position := by
            apply ih3
            intro m'' hm''
            constructor
            · rw [hplaced]
              intro hcontra
              obtain ⟨hmo'', _⟩ := hb_rest m'' hm''
              exact ho_head m'' hm'' (hinj _ _ hmo hmo'' hcontra)
            · exact hp_head m'' hm''
          rw [hkeep, hplaced]
        · rw [hfold]
          exact ih2 m' hm''
      · intro q hq
        obtain ⟨hq_item, hq_target⟩ := hq m (List.mem_cons_self m rest)
        have hqpos₀ : q ≠ pos₀ := by
          intro hcontra
          rw [hcontra] at hq_item
          exact hq_item hRpos₀
        have hRq : R' q = R q := hframe q hqpos₀ hq_target
        rw [hfold]
        have : rest.foldl (apply_critical_step original n) R' q = R' q := by
          apply ih3
          intro m'' hm''
          obtain ⟨h1, h2⟩ := hq m'' (List.mem_cons_of_mem m hm'')
          rw [hRq]
          exact ⟨h1, h2⟩
        rw [this, hRq]

/-- C4: if all (classification, score) pairs of the original grid are
pairwise distinct and the critical movements have pairwise distinct
original positions and pairwise distinct optimized positions with both
in range (as movements produced by `calculate_movement_gains` do), then
`apply_critical_movements_only` lands, for every critical movement, the
item originally at its original position at its optimized position, and
the result is a permutation of the original grid (pairwise swaps
duplicate and lose nothing). -/
theorem apply_critical_movements_only_spec (n : ℕ) (original : GridF)
    (hinj : ∀ p q, p < n → q < n → original p = original q → p = q)
    (critical : List Movement)
    (hb : ∀ m ∈ critical, m.original_position < n ∧ m.optimized_position < n)
    (ho : critical.Pairwise (fun a b => a.original_position ≠ b.original_position))
    (hp : critical.Pairwise (fun a b => a.optimized_position ≠ b.optimized_position)) :
    (∀ m ∈ critical,
      apply_critical_movements_only n original critical m.optimized_position
        = original m.original_position) ∧
    gridMultiset n (apply_critical_movements_only n original critical)
      = gridMultiset n original := by
  obtain ⟨⟨e', he', hfin⟩, hplace, _⟩ :=
    apply_critical_foldl_spec n original hinj critical original (Equiv.refl ℕ)
      (fun p => Iff.rfl) (fun p => rfl) hb ho hp
  refine ⟨hplace, ?_⟩
  have hgrid : apply_critical_movements_only n original critical
      = fun p => original (e' p) := funext hfin
  rw [hgrid]
  exact gridMultiset_comp_perm n original e' he'

/-- Witness for C4 on the injective grid `p ↦ ("X", p)` of length 6 with
the single critical movement `5 → 0`. -/
theorem apply_critical_movements_only_spec_witness :
    (apply_critical_movements_only 6 (fun p => ("X", (p : ℤ)))
      [{ sku_classification := "X", importance_score := 5, original_position := 5,
         optimized_position := 0, original_row := 0, optimized_row := 0,
         original_cost := 0, optimized_cost := 0, gain := 0, gain_percentage := 0 }] 0
      = (fun p => (("X", (p : ℤ)) : Sku)) 5) ∧
    gridMultiset 6 (apply_critical_movements_only 6 (fun p => ("X", (p : ℤ)))
      [{ sku_classification := "X", importance_score := 5, original_position := 5,
         optimized_position := 0, original_row := 0, optimized_row := 0,
         original_cost := 0, optimized_cost := 0, gain := 0, gain_percentage := 0 }])
      = gridMultiset 6 (fun p => ("X", (p : ℤ))) := by
  obtain ⟨hplace, hmul⟩ := apply_critical_movements_only_spec 6 (fun p => ("X", (p : ℤ)))
    (fun p q _ _ h => by
      have h2 : ((p : ℤ)) = ((q : ℤ)) := congrArg Prod.snd h
      exact_mod_cast h2)
    [{ sku_classification := "X", importance_score := 5, original_position := 5,
       optimized_position := 0, original_row := 0, optimized_row := 0,
       original_cost := 0, optimized_cost := 0, gain := 0, gain_percentage := 0 }]
    (by intro m hm; rw [List.mem_singleton.mp hm]; exact ⟨by norm_num, by norm_num⟩)
    (List.pairwise_singleton _ _) (List.pairwise_singleton _ _)
  exact ⟨hplace _ (List.mem_singleton_self _), hmul⟩

/-- Every movement produced by `calculate_movement_gains` has both of
its positions inside the grid. -/
theorem movement_gains_bounds (n cols : ℕ) (g g' : GridF) :
    ∀ m ∈ calculate_movement_gains n cols g g',
      m.original_position < n ∧ m.optimized_position < n := by
  intro m hm
  unfold calculate_movement_gains at hm
  rw [List.mem_mergeSort] at hm
  rcases List.mem_filterMap.mp hm with ⟨op, hop, hf⟩
  rcases hfind : find_first n g' (g op) with _ | pp
  · rw [hfind] at hf
    simp at hf
  · rw [hfind] at hf
    by_cases hne : op = pp
    · rw [hne] at hf
      simp at hf
    · have hf' : make_movement cols g op pp = m := by
        have := hf
        simp only [ne_eq, hne, not_false_eq_true, if_true] at this
        exact Option.some.inj this
      subst hf'
      refine ⟨List.mem_range.mp hop, ?_⟩
      exact (find_first_mem n g' (g op) pp hfind).1

/-- The subset selected by the Pareto accumulation loop is contained in
its input list. -/
theorem take_critical_subset (t : ℝ) (l : List Movement) (acc : ℝ) :
    ∀ m ∈ (take_critical t l acc).1, m ∈ l := by
  induction l generalizing acc with
  | nil => intro m hm; simp [take_critical] at hm
  | cons x rest ih =>
      intro m hm
      rw [take_critical] at hm
      by_cases hc : acc < t
      · rw [if_pos hc] at hm
        rcases List.mem_cons.mp hm with rfl | hm'
        · exact List.mem_cons_self m rest
        · exact List.mem_cons_of_mem x (ih (acc + x.gain) m hm')
      · rw [if_neg hc] at hm
        simp at hm

/-- The critical subset returned by the Pareto selector is contained in
the movement list it was given. -/
theorem identify_pareto_subset (movements : List Movement) (pct : ℝ) :
    ∀ m ∈ (identify_pareto_critical_movements movements pct).1, m ∈ movements := by
  cases movements with
  | nil => intro m hm; simp [identify_pareto_critical_movements] at hm
  | cons x rest =>
      intro m hm
      simp only [identify_pareto_critical_movements] at hm
      exact take_critical_subset _ _ _ m hm

/-- Helper: the `find_sku_position` scan is the identity on indices. -/
theorem find_sku_position_id (n : ℕ) (g : GridF) (k : ℕ) :
    find_sku_position n g k = k := by
  unfold find_sku_position
  rcases h : (List.range n).find? (fun pos => pos = k) with _ | p
  · rfl
  · have := List.find?_some h
    simpa using this

/-- The `get_neighbors` from `affinity_optimizer.py`: the positions within
Chebyshev radius `radius` of a position (clipped to the grid), in
row-major order, excluding the position itself.  Natural subtraction
realizes the source's `max(0, row - radius)` clamps. -/
def get_neighbors (position rows cols radius : ℕ) : List ℕ :=
  let row := position / cols
  let col := position % cols
  (List.range' (row - radius) (min rows (row + radius + 1) - (row - radius))).flatMap
    (fun r =>
      (List.range' (col - radius) (min cols (col + radius + 1) - (col - radius))).filterMap
        (fun c =>
          let neighbor_pos := r * cols + c
          if neighbor_pos ≠ position then some neighbor_pos else none))

/-- Every neighbor on the 10×10 grid is a valid linear index. -/
theorem get_neighbors_lt (position radius : ℕ) :
    ∀ nb ∈ get_neighbors position 10 10 radius, nb < 100 := by
  intro nb hnb
  unfold get_neighbors at hnb
  rcases List.mem_flatMap.mp hnb with ⟨r, hr, hc⟩
  rcases List.mem_filterMap.mp hc with ⟨c, hcmem, heq⟩
  rcases List.mem_range'.mp hr with ⟨i, hi, rfl⟩
  rcases List.mem_range'.mp hcmem with ⟨j, hj, rfl⟩
  by_cases hne : (position / 10 - radius + 1 * i) * 10 + (position % 10 - radius + 1 * j)
      ≠ position
  · rw [if_pos hne] at heq
    have hnb_eq := Option.some.inj heq
    omega
  · rw [if_neg hne] at heq
    exact absurd heq (by simp)

/-- The `swap_positions` from `affinity_optimizer.py`: exchange the contents
of two linear positions of the (paired) grid. -/
def swap_positions (g : GridF) (pos1 pos2 : ℕ) : GridF :=
  fun p => g (Equiv.swap pos1 pos2 p)

/-- The `calculate_affinity_penalty` from `affinity_optimizer.py`: sum over
item pairs with positive affinity of
`affinity × distance(position_i, position_j) × weight`, positions taken
from `find_sku_position`. -/
noncomputable def calculate_affinity_penalty (n : ℕ) (g : GridF)
    (A : ℕ → ℕ → ℝ) (affinity_weight : ℝ) : ℝ :=
  ∑ i ∈ Finset.range n, ∑ j ∈ Finset.range n,
    if i < j ∧ 0 < A i j then
      A i j * calculate_euclidean_distance
        (find_sku_position n g i) (find_sku_position n g j) 10 * affinity_weight
    else 0

/-- The `calculate_combined_score` from `affinity_optimizer.py`: operational
cost plus affinity penalty. -/
noncomputable def calculate_combined_score (n cols : ℕ) (g : GridF)
    (A : ℕ → ℕ → ℝ) (affinity_weight : ℝ) : ℝ :=
  calculate_total_cost n cols g + calculate_affinity_penalty n g A affinity_weight

/-- One entry of the affinity-pair worklist built each iteration of
`post_optimize_affinity_swaps`. -/
structure AffinityPair where
  sku_i : ℕ
  sku_j : ℕ
  affinity : ℝ

/-- The affinity-pair worklist: all pairs `i < j` with affinity above
0.1, sorted descending by affinity strength (stable sort). -/
noncomputable def build_affinity_pairs (N : ℕ) (A : ℕ → ℕ → ℝ) : List AffinityPair :=
  ((List.range N).flatMap (fun i =>
    (List.range' (i + 1) (N - (i + 1))).filterMap (fun j =>
      if 0.1 < A i j then some ⟨i, j, A i j⟩ else none))).mergeSort
    (fun a b => decide (b.affinity ≤ a.affinity))

/-- Both members of every built affinity pair are valid item indices. -/
theorem build_affinity_pairs_bounds (N : ℕ) (A : ℕ → ℕ → ℝ) :
    ∀ pr ∈ build_affinity_pairs N A, pr.sku_i < N ∧ pr.sku_j < N := by
  intro pr hpr
  unfold build_affinity_pairs at hpr
  rw [List.mem_mergeSort] at hpr
  rcases List.mem_flatMap.mp hpr with ⟨i, hi, hrest⟩
  rcases List.mem_filterMap.mp hrest with ⟨j, hj, heq⟩
  rcases List.mem_range'.mp hj with ⟨k, hk, rfl⟩
  have hiN : i < N := List.mem_range.mp hi
  by_cases hpos : (0.1 : ℝ) < A i (i + 1 + 1 * k)
  · rw [if_pos hpos] at heq
    have := Option.some.inj heq
    subst this
    constructor
    · exact hiN
    · show i + 1 + 1 * k < N
      omega
  · rw [if_neg hpos] at heq
    exact absurd heq (by simp)

/-- The neighbor scan of `post_optimize_affinity_swaps` (one of the two
`for neighbor in ...` loops): try swapping the fixed partner with each
neighbor, and keep the best candidate whose new operational cost respects
the budget, whose combined score strictly improves on the best so far,
and whose distance to the affinity partner strictly shrinks. -/
noncomputable def process_pair_candidates (n cols : ℕ) (cur : GridF)
    (A : ℕ → ℕ → ℝ) (affinity_weight maxAllowed curDist : ℝ) (swapFixed : ℕ)
    (distTo : ℕ → ℝ) (init : ℝ × Option (ℕ × ℕ)) (neighbors : List ℕ) :
    ℝ × Option (ℕ × ℕ) :=
  neighbors.foldl (fun best neighbor =>
    let new_g := swap_positions cur swapFixed neighbor
    let new_cost := calculate_total_cost n cols new_g
    if new_cost ≤ maxAllowed then
      let new_score := calculate_combined_score n cols new_g A affinity_weight
      let new_distance := distTo neighbor
      if new_score < best.1 ∧ new_distance < curDist then
        (new_score, some (swapFixed, neighbor))
      else best
    else best) init

/-- Processing one affinity pair: scan the radius-2 neighborhoods of both
members (left member's neighborhood first) and return the best accepted
swap, if any. -/
noncomputable def process_pair (n cols : ℕ) (cur : GridF) (A : ℕ → ℕ → ℝ)
    (affinity_weight maxAllowed : ℝ) (pair : AffinityPair) : Option (ℕ × ℕ) :=
  let pos_i := find_sku_position n cur pair.sku_i
  let pos_j := find_sku_position n cur pair.sku_j
  let current_distance := calculate_euclidean_distance pos_i pos_j 10
  let neighbors_i := get_neighbors pos_i 10 10 2
  let neighbors_j := get_neighbors pos_j 10 10 2
  let init : ℝ × Option (ℕ × ℕ) :=
    (calculate_combined_score n cols cur A affinity_weight, none)
  let after_i := process_pair_candidates n cols cur A affinity_weight maxAllowed
    current_distance pos_j (fun nb => calculate_euclidean_distance pos_i nb 10)
    init neighbors_i
  let after_j := process_pair_candidates n cols cur A affinity_weight maxAllowed
    current_distance pos_i (fun nb => calculate_euclidean_distance nb pos_j 10)
    after_i neighbors_j
  after_j.2

/-- The pair loop of one outer iteration: walk the sorted worklist and
apply the first pair's accepted best swap (`break` on success), returning
the swapped grid, or `none` when no pair yields a swap. -/
noncomputable def scan_pairs (n cols : ℕ) (A : ℕ → ℕ → ℝ)
    (affinity_weight maxAllowed : ℝ) (cur : GridF) :
    List AffinityPair → Option GridF
  | [] => none
  | pair :: rest =>
      match process_pair n cols cur A affinity_weight maxAllowed pair with
      | some pq => some (swap_positions cur pq.1 pq.2)
      | none => scan_pairs n cols A affinity_weight maxAllowed cur rest

/-- The outer `while improved and iteration < max_iterations` loop of
`post_optimize_affinity_swaps`, with the remaining iteration budget as
fuel; returns the final grid with the swap and iteration counters. -/
noncomputable def affinity_loop (n cols : ℕ) (A : ℕ → ℕ → ℝ)
    (affinity_weight maxAllowed : ℝ) :
    ℕ → GridF → ℕ → ℕ → GridF × ℕ × ℕ
  | 0, cur, swaps, iters => (cur, swaps, iters)
  | fuel + 1, cur, swaps, iters =>
      match scan_pairs n cols A affinity_weight maxAllowed cur
          (build_affinity_pairs n A) with
      | some next =>
          affinity_loop n cols A affinity_weight maxAllowed fuel next
            (swaps + 1) (iters + 1)
      | none => (cur, swaps, iters + 1)

/-- Statistics of `post_optimize_affinity_swaps`.  (The early-return
branch for a missing affinity matrix reports only zero swaps and zero
improvement; its remaining fields are modelled as 0.) -/
structure AffinityStats where
  swaps : ℕ
  iterations : ℕ
  initial_cost : ℝ
  final_cost : ℝ
  cost_increase : ℝ
  cost_increase_pct : ℝ
  initial_affinity_penalty : ℝ
  final_affinity_penalty : ℝ
  affinity_improvement : ℝ
  affinity_improvement_pct : ℝ
  initial_score : ℝ
  final_score : ℝ
  total_improvement : ℝ

/-- The `post_optimize_affinity_swaps` from `affinity_optimizer.py`: local
search over affinity pairs as above, bounded by the operational-cost
budget `initial_cost × (1 + max_cost_increase_pct/100)` and the iteration
cap.  `n = rows·cols` is the flattened grid length (100 in the system,
where the affinity matrix is 100×100). -/
noncomputable def post_optimize_affinity_swaps (n cols : ℕ) (optimized : GridF)
    (aff : Option (ℕ → ℕ → ℝ)) (affinity_weight max_cost_increase_pct : ℝ)
    (max_iterations : ℕ) : GridF × AffinityStats :=
  match aff with
  | none => (optimized, ⟨0, 0, 0, 0, 0, 0, 0, 0, 0, 0, 0, 0, 0⟩)
  | some A =>
      let initial_cost := calculate_total_cost n cols optimized
      let initial_affinity_penalty :=
        calculate_affinity_penalty n optimized A affinity_weight
      let initial_score := initial_cost + initial_affinity_penalty
      let max_allowed_cost := initial_cost * (1 + max_cost_increase_pct / 100)
      let r := affinity_loop n cols A affinity_weight max_allowed_cost
        max_iterations optimized 0 0
      let final_cost := calculate_total_cost n cols r.1
      let final_affinity_penalty := calculate_affinity_penalty n r.1 A affinity_weight
      let final_score := final_cost + final_affinity_penalty
      (r.1,
       { swaps := r.2.1
         iterations := r.2.2
         initial_cost := initial_cost
         final_cost := final_cost
         cost_increase := final_cost - initial_cost
         cost_increase_pct :=
           if 0 < initial_cost then (final_cost - initial_cost) / initial_cost * 100 else 0
         initial_affinity_penalty := initial_affinity_penalty
         final_affinity_penalty := final_affinity_penalty
         affinity_improvement := initial_affinity_penalty - final_affinity_penalty
         affinity_improvement_pct :=
           if 0 < initial_affinity_penalty then
             (initial_affinity_penalty - final_affinity_penalty) /
               initial_affinity_penalty * 100
           else 0
         initial_score := initial_score
         final_score := final_score
         total_improvement := initial_score - final_score })

/-- Any candidate the neighbor scan records was swap-checked against the
operational-cost budget, and its swap positions are in range. -/
theorem process_pair_candidates_spec (n cols : ℕ) (cur : GridF)
    (A : ℕ → ℕ → ℝ) (affinity_weight maxAllowed curDist : ℝ) (swapFixed : ℕ)
    (distTo : ℕ → ℝ) (init : ℝ × Option (ℕ × ℕ)) (neighbors : List ℕ)
    (hsf : swapFixed < n) (hnb : ∀ nb ∈ neighbors, nb < 100)
    (hinit : ∀ p q, init.2 = some (p, q) → (p < n ∧ q < 100) ∧
      calculate_total_cost n cols (swap_positions cur p q) ≤ maxAllowed) :
    ∀ p q, (process_pair_candidates n cols cur A affinity_weight maxAllowed
        curDist swapFixed distTo init neighbors).2 = some (p, q) →
      (p < n ∧ q < 100) ∧
      calculate_total_cost n cols (swap_positions cur p q) ≤ maxAllowed := by
  induction neighbors generalizing init with
  | nil => exact hinit
  | cons nb rest ih =>
      have hnb_head : nb < 100 := hnb nb (List.mem_cons_self nb rest)
      have hnb_rest : ∀ x ∈ rest, x < 100 :=
        fun x hx => hnb x (List.mem_cons_of_mem nb hx)
      unfold process_pair_candidates
      rw [List.foldl_cons]
      have hstep : ∀ p q,
          ((fun best neighbor =>
            let new_g := swap_positions cur swapFixed neighbor
            let new_cost := calculate_total_cost n cols new_g
            if new_cost ≤ maxAllowed then
              let new_score := calculate_combined_score n cols new_g A affinity_weight
              let new_distance := distTo neighbor
              if new_score < best.1 ∧ new_distance < curDist then
                (new_score, some (swapFixed, neighbor))
              else best
            else best) init nb).2 = some (p, q) →
          (p < n ∧ q < 100) ∧
          calculate_total_cost n cols (swap_positions cur p q) ≤ maxAllowed := by
        intro p q h
        simp only at h
        by_cases hcost : calculate_total_cost n cols
            (swap_positions cur swapFixed nb) ≤ maxAllowed
        · rw [if_pos hcost] at h
          by_cases himp : calculate_combined_score n cols
              (swap_positions cur swapFixed nb) A affinity_weight < init.1 ∧
              distTo nb < curDist
          · rw [if_pos himp] at h
            have hp : swapFixed = p ∧ nb = q := by
              have h1 := congrArg Prod.fst (Option.some.inj h)
              have h2 := congrArg Prod.snd (Option.some.inj h)
              exact ⟨h1, h2⟩
            obtain ⟨rfl, rfl⟩ := hp
            exact ⟨⟨hsf, hnb_head⟩, hcost⟩
          · rw [if_neg himp] at h
            exact hinit p q h
        · rw [if_neg hcost] at h
          exact hinit p q h
      exact ih _ hnb_rest hstep

/-- Any swap `process_pair` accepts respects the budget, and its
positions are in range. -/
theorem process_pair_spec (n cols : ℕ) (cur : GridF) (A : ℕ → ℕ → ℝ)
    (affinity_weight maxAllowed : ℝ) (pair : AffinityPair)
    (hi : pair.sku_i < n) (hj : pair.sku_j < n) :
    ∀ p q, process_pair n cols cur A affinity_weight maxAllowed pair = some (p, q) →
      (p < n ∧ q < 100) ∧
      calculate_total_cost n cols (swap_positions cur p q) ≤ maxAllowed := by
  intro p q h
  unfold process_pair at h
  rw [find_sku_position_id, find_sku_position_id] at h
  refine process_pair_candidates_spec n cols cur A affinity_weight maxAllowed _
    pair.sku_i _ _ _ hi (get_neighbors_lt _ _) ?_ p q h
  exact process_pair_candidates_spec n cols cur A affinity_weight maxAllowed _
    pair.sku_j _ _ _ hj (get_neighbors_lt _ _) (by intro p' q' h'; simp at h') 

/-- Any grid the pair loop accepts is a single in-range swap of the
current grid and respects the operational-cost budget. -/
theorem scan_pairs_spec (n cols : ℕ) (A : ℕ → ℕ → ℝ)
    (affinity_weight maxAllowed : ℝ) (cur : GridF) (pairs : List AffinityPair)
    (hpairs : ∀ pr ∈ pairs, pr.sku_i < n ∧ pr.sku_j < n) :
    ∀ g', scan_pairs n cols A affinity_weight maxAllowed cur pairs = some g' →
      (∃ p q, p < n ∧ q < 100 ∧ g' = swap_positions cur p q) ∧
      calculate_total_cost n cols g' ≤ maxAllowed := by
  induction pairs with
  | nil => intro g' h; simp [scan_pairs] at h
  | cons pair rest ih =>
      intro g' h
      obtain ⟨hi, hj⟩ := hpairs pair (List.mem_cons_self pair rest)
      rw [scan_pairs] at h
      rcases hp : process_pair n cols cur A affinity_weight maxAllowed pair with _ | pq
      · rw [hp] at h
        exact ih (fun pr hpr => hpairs pr (List.mem_cons_of_mem pair hpr)) g' h
      · rw [hp] at h
        have hg' : g' = swap_positions cur pq.1 pq.2 := (Option.some.inj h).symm
        obtain ⟨⟨hp1, hp2⟩, hcost⟩ :=
          process_pair_spec n cols cur A affinity_weight maxAllowed pair hi hj
            pq.1 pq.2 (by rw [hp])
        subst hg'
        exact ⟨⟨pq.1, pq.2, hp1, hp2, rfl⟩, hcost⟩

/-- The operational-cost budget is an invariant of the outer iteration
loop. -/
theorem affinity_loop_cost_bound (n cols : ℕ) (A : ℕ → ℕ → ℝ)
    (affinity_weight maxAllowed : ℝ) (fuel : ℕ) (cur : GridF) (swaps iters : ℕ)
    (hcur : calculate_total_cost n cols cur ≤ maxAllowed) :
    calculate_total_cost n cols
      (affinity_loop n cols A affinity_weight maxAllowed fuel cur swaps iters).1
      ≤ maxAllowed := by
  induction fuel generalizing cur swaps iters with
  | zero => exact hcur
  | succ fuel ih =>
      rw [affinity_loop]
      rcases hscan : scan_pairs n cols A affinity_weight maxAllowed cur
          (build_affinity_pairs n A) with _ | next
      · exact hcur
      · obtain ⟨_, hcost⟩ := scan_pairs_spec n cols A affinity_weight maxAllowed cur
          (build_affinity_pairs n A) (build_affinity_pairs_bounds n A) next hscan
        exact ih next (swaps + 1) (iters + 1) hcost

/-- Position cost is non-negative for non-negative scores. -/
theorem position_cost_nonneg (row : ℕ) (s : ℝ) (hs : 0 ≤ s) :
    0 ≤ calculate_position_cost row s := by
  unfold calculate_position_cost calculate_importance_factor
  have hd : 0 ≤ (if row = 0 then (1:ℝ) else (row : ℝ) + 1) := by
    rcases Nat.eq_zero_or_pos row with h | h
    · simp [h]
    · have h' : row ≠ 0 := by omega
      rw [if_neg h']
      positivity
  have hf : 0 ≤ Real.logb 10 (s + 1) + 1 := by
    have : 0 ≤ Real.logb 10 (s + 1) := Real.logb_nonneg (by norm_num) (by linarith)
    linarith
  have := mul_nonneg (mul_nonneg hd hs) hf
  exact this

/-- Total cost is non-negative when every stored score is. -/
theorem total_cost_nonneg (n cols : ℕ) (g : GridF)
    (hs : ∀ p, p < n → 0 ≤ (g p).2) :
    0 ≤ calculate_total_cost n cols g := by
  unfold calculate_total_cost
  apply Finset.sum_nonneg
  intro p hp
  apply position_cost_nonneg
  exact_mod_cast hs p (Finset.mem_range.mp hp)

/-- C2: for every input grid with non-negative importance scores,
affinity matrix (present or absent), affinity weight, non-negative
`max_cost_increase_pct` and iteration cap, the grid returned by
`post_optimize_affinity_swaps` has operational cost at most
`initial_cost × (1 + max_cost_increase_pct/100)`; moreover every swap
the pair loop accepts already respects that budget (the check is made
before acceptance), so the bound holds after every accepted swap, not
just at the end. -/
theorem post_optimize_affinity_swaps_cost_bound (n cols : ℕ) (g : GridF)
    (aff : Option (ℕ → ℕ → ℝ)) (affinity_weight max_cost_increase_pct : ℝ)
    (max_iterations : ℕ)
    (hpct : 0 ≤ max_cost_increase_pct)
    (hscores : ∀ p, p < n → 0 ≤ (g p).2) :
    calculate_total_cost n cols
        (post_optimize_affinity_swaps n cols g aff affinity_weight
          max_cost_increase_pct max_iterations).1
      ≤ calculate_total_cost n cols g * (1 + max_cost_increase_pct / 100) ∧
    (∀ A cur pairs g',
      scan_pairs n cols A affinity_weight
          (calculate_total_cost n cols g * (1 + max_cost_increase_pct / 100))
          cur pairs = some g' →
      (∀ pr ∈ pairs, pr.sku_i < n ∧ pr.sku_j < n) →
      calculate_total_cost n cols g'
        ≤ calculate_total_cost n cols g * (1 + max_cost_increase_pct / 100)) := by
  have hinit : 0 ≤ calculate_total_cost n cols g := total_cost_nonneg n cols g hscores
  have hbudget : calculate_total_cost n cols g
      ≤ calculate_total_cost n cols g * (1 + max_cost_increase_pct / 100) := by
    have h1 : calculate_total_cost n cols g * (1 + max_cost_increase_pct / 100)
        = calculate_total_cost n cols g
          + calculate_total_cost n cols g * (max_cost_increase_pct / 100) := by ring
    have h2 : 0 ≤ calculate_total_cost n cols g * (max_cost_increase_pct / 100) :=
      mul_nonneg hinit (by positivity)
    linarith
  constructor
  · rcases aff with _ | A
    · exact hbudget
    · simp only [post_optimize_affinity_swaps]
      exact affinity_loop_cost_bound n cols A affinity_weight _ max_iterations g 0 0 hbudget
  · intro A cur pairs g' hscan hpairs
    exact (scan_pairs_spec n cols A affinity_weight _ cur pairs hpairs g' hscan).2

/-- Witness for C2 on the constant grid of score 1 with no affinity
matrix, weight 1, budget 2 % and zero iterations. -/
theorem post_optimize_affinity_swaps_cost_bound_witness :
    calculate_total_cost 100 10
        (post_optimize_affinity_swaps 100 10 (fun _ => ("A", 1)) none 1 2 0).1
      ≤ calculate_total_cost 100 10 (fun _ => ("A", 1)) * (1 + 2 / 100) ∧
    (∀ A cur pairs g',
      scan_pairs 100 10 A 1
          (calculate_total_cost 100 10 (fun _ => ("A", 1)) * (1 + 2 / 100))
          cur pairs = some g' →
      (∀ pr ∈ pairs, pr.sku_i < 100 ∧ pr.sku_j < 100) →
      calculate_total_cost 100 10 g'
        ≤ calculate_total_cost 100 10 (fun _ => ("A", 1)) * (1 + 2 / 100)) :=
  post_optimize_affinity_swaps_cost_bound 100 10 (fun _ => ("A", 1)) none 1 2 0
    (by norm_num) (fun p _ => by norm_num)

/-- An in-range swap leaves the stored multiset unchanged. -/
theorem gridMultiset_swap_positions (n : ℕ) (g : GridF) (i j : ℕ)
    (hi : i < n) (hj : j < n) :
    gridMultiset n (swap_positions g i j) = gridMultiset n g :=
  gridMultiset_comp_perm n g (Equiv.swap i j) (swap_preserves_lt n i j hi hj)

/-- The outer affinity loop only performs in-range swaps, so the stored
multiset is invariant (stated at the system's 100-cell size, where both
swap end points are known to be in range). -/
theorem affinity_loop_multiset (cols : ℕ) (A : ℕ → ℕ → ℝ)
    (affinity_weight maxAllowed : ℝ) (fuel : ℕ) (cur : GridF) (swaps iters : ℕ) :
    gridMultiset 100
      (affinity_loop 100 cols A affinity_weight maxAllowed fuel cur swaps iters).1
      = gridMultiset 100 cur := by
  induction fuel generalizing cur swaps iters with
  | zero => rfl
  | succ fuel ih =>
      rw [affinity_loop]
      rcases hscan : scan_pairs 100 cols A affinity_weight maxAllowed cur
          (build_affinity_pairs 100 A) with _ | next
      · rfl
      · obtain ⟨⟨p, q, hp, hq, hg'⟩, _⟩ :=
          scan_pairs_spec 100 cols A affinity_weight maxAllowed cur
            (build_affinity_pairs 100 A) (build_affinity_pairs_bounds 100 A) next hscan
        rw [ih next (swaps + 1) (iters + 1), hg',
          gridMultiset_swap_positions 100 cur p q hp hq]

/-- The affinity post-optimizer returns a permutation of its input grid. -/
theorem post_optimize_multiset (cols : ℕ) (g : GridF)
    (aff : Option (ℕ → ℕ → ℝ)) (affinity_weight max_cost_increase_pct : ℝ)
    (max_iterations : ℕ) :
    gridMultiset 100 (post_optimize_affinity_swaps 100 cols g aff affinity_weight
      max_cost_increase_pct max_iterations).1 = gridMultiset 100 g := by
  rcases aff with _ | A
  · rfl
  · simp only [post_optimize_affinity_swaps]
    exact affinity_loop_multiset cols A affinity_weight _ max_iterations g 0 0

/-- The `apply_critical_movements_only` fold is a composition of in-range swaps,
hence a permutation of the original grid — for any critical list whose
target positions are in range, duplicates in the grid included. -/
theorem apply_critical_multiset (n : ℕ) (original : GridF)
    (critical : List Movement)
    (hb : ∀ m ∈ critical, m.optimized_position < n) :
    gridMultiset n (apply_critical_movements_only n original critical)
      = gridMultiset n original := by
  suffices h : ∀ (R : GridF) (e : Equiv.Perm ℕ), (∀ p, p < n ↔ e p < n) →
      (∀ p, R p = original (e p)) →
      ∃ e' : Equiv.Perm ℕ, (∀ p, p < n ↔ e' p < n) ∧
        ∀ p, (critical.foldl (apply_critical_step original n) R) p = original (e' p) by
    obtain ⟨e', he', hfin⟩ := h original (Equiv.refl ℕ) (fun p => Iff.rfl) (fun p => rfl)
    have : apply_critical_movements_only n original critical
        = fun p => original (e' p) := funext hfin
    rw [this]
    exact gridMultiset_comp_perm n original e' he'
  induction critical with
  | nil => intro R e he hRe; exact ⟨e, he, hRe⟩
  | cons m rest ih =>
      intro R e he hRe
      have hb_rest : ∀ m' ∈ rest, m'.optimized_position < n :=
        fun m' hm' => hb m' (List.mem_cons_of_mem m hm')
      have hmt : m.optimized_position < n := hb m (List.mem_cons_self m rest)
      rw [List.foldl_cons]
      have hstep : ∃ e₁ : Equiv.Perm ℕ, (∀ p, p < n ↔ e₁ p < n) ∧
          (∀ p, apply_critical_step original n R m p = original (e₁ p)) := by
        rcases hfind : find_first n R (original m.original_position) with _ | cp
        · refine ⟨e, he, fun p => ?_⟩
          simp only [apply_critical_step, hfind]
          exact hRe p
        · obtain ⟨hcpn, _⟩ := find_first_mem n R _ cp hfind
          by_cases hne : cp ≠ m.optimized_position
          · refine ⟨(Equiv.swap cp m.optimized_position).trans e, fun p => ?_, fun p => ?_⟩
            · exact (swap_preserves_lt n cp m.optimized_position hcpn hmt p).trans
                (he (Equiv.swap cp m.optimized_position p))
            · simp only [apply_critical_step, hfind, if_pos hne]
              rw [hRe]
              rfl
          · refine ⟨e, he, fun p => ?_⟩
            simp only [apply_critical_step, hfind, if_neg hne]
            exact hRe p
      obtain ⟨e₁, he₁, hRe₁⟩ := hstep
      exact ih (fun m' hm' => hb_rest m' hm') (apply_critical_step original n R m) e₁ he₁ hRe₁

/-- Extension of a permutation of `Fin 100` to all of `ℕ`, fixing
everything from 100 up. -/
def perm_extend (σ : Equiv.Perm (Fin 100)) : Equiv.Perm ℕ where
  toFun j := if h : j < 100 then ((σ ⟨j, h⟩ : Fin 100) : ℕ) else j
  invFun j := if h : j < 100 then ((σ.symm ⟨j, h⟩ : Fin 100) : ℕ) else j
  left_inv := by
    intro j
    by_cases h : j < 100
    · simp only [dif_pos h]
      have h2 : ((σ ⟨j, h⟩ : Fin 100) : ℕ) < 100 := (σ ⟨j, h⟩).isLt
      rw [dif_pos h2]
      have h3 : (⟨((σ ⟨j, h⟩ : Fin 100) : ℕ), h2⟩ : Fin 100) = σ ⟨j, h⟩ := rfl
      rw [h3, Equiv.symm_apply_apply]
    · simp only [dif_neg h]
  right_inv := by
    intro j
    by_cases h : j < 100
    · simp only [dif_pos h]
      have h2 : ((σ.symm ⟨j, h⟩ : Fin 100) : ℕ) < 100 := (σ.symm ⟨j, h⟩).isLt
      rw [dif_pos h2]
      have h3 : (⟨((σ.symm ⟨j, h⟩ : Fin 100) : ℕ), h2⟩ : Fin 100) = σ.symm ⟨j, h⟩ := rfl
      rw [h3, Equiv.apply_symm_apply]
    · simp only [dif_neg h]

/-- Reconstruction step shared by all strategies (`slotting.py`,
`optimize_inertia.py`): with the solver's row indices sorted
(`row_ind = 0..99`) and `σ` its column assignment,
`optimized[σ k] = flat[k]`, i.e. position `j` receives the item from
`σ⁻¹ j`; positions outside the grid are untouched. -/
def reconstruct (g : GridF) (σ : Equiv.Perm (Fin 100)) : GridF :=
  fun j => if h : j < 100 then g ((σ.symm ⟨j, h⟩ : Fin 100) : ℕ) else g j

/-- Reconstruction from a solver assignment permutes the stored pairs. -/
theorem reconstruct_multiset (g : GridF) (σ : Equiv.Perm (Fin 100)) :
    gridMultiset 100 (reconstruct g σ) = gridMultiset 100 g := by
  have heq : reconstruct g σ = fun p => g (perm_extend σ.symm p) := by
    funext p
    by_cases h : p < 100
    · simp only [reconstruct, perm_extend, Equiv.coe_fn_mk, dif_pos h]
    · simp only [reconstruct, perm_extend, Equiv.coe_fn_mk, dif_neg h]
  have he : ∀ p, p < 100 ↔ perm_extend σ.symm p < 100 := by
    intro p
    by_cases h : p < 100
    · simp only [perm_extend, Equiv.coe_fn_mk, dif_pos h]
      exact ⟨fun _ => (σ.symm ⟨p, h⟩).isLt, fun _ => h⟩
    · simp only [perm_extend, Equiv.coe_fn_mk, dif_neg h]
  rw [heq]
  exact gridMultiset_comp_perm 100 g (perm_extend σ.symm) he

/-- Strategy 1, `optimize_slotting` from `slotting.py`: build the cost
matrix, ask the (external) solver for a minimum-cost assignment, and
reconstruct the grid along it. -/
noncomputable def optimize_slotting
    (solve : (ℕ → ℕ → ℝ) → Equiv.Perm (Fin 100)) (g : GridF)
    (aff : Option (ℕ → ℕ → ℝ)) (affinity_weight : ℝ) : GridF :=
  reconstruct g (solve (calculate_cost_matrix g aff affinity_weight))

/-- Strategy 2, `optimize_slotting_with_inertia` from
`optimize_inertia.py`: solve unconstrained, flag inertial items by their
measured percentage gains, add the inertia penalty (default factor 1000)
to the cost matrix, and re-solve.  Returns the re-solved grid and the
inertial count. -/
noncomputable def optimize_slotting_with_inertia
    (solve : (ℕ → ℕ → ℝ) → Equiv.Perm (Fin 100)) (g : GridF)
    (aff : Option (ℕ → ℕ → ℝ)) (affinity_weight gain_threshold_pct : ℝ) :
    GridF × ℕ :=
  let cost_matrix := calculate_cost_matrix g aff affinity_weight
  let hungarian_full := reconstruct g (solve cost_matrix)
  let im := identify_inertial_skus 100 10 g hungarian_full gain_threshold_pct
  let cost_matrix_inertia := apply_inertia_constraint cost_matrix im.1 1000
  (reconstruct g (solve cost_matrix_inertia), im.2)

/-- Strategy 3, `optimize_slotting_with_affinity_post` from
`slotting.py`: solve with the affinity-free cost matrix, then run the
affinity post-optimizer (iteration cap 100, the source's default) when
an affinity matrix and a positive weight are supplied. -/
noncomputable def optimize_slotting_with_affinity_post
    (solve : (ℕ → ℕ → ℝ) → Equiv.Perm (Fin 100)) (g : GridF)
    (aff : Option (ℕ → ℕ → ℝ)) (affinity_weight max_cost_increase_pct : ℝ) :
    GridF × AffinityStats :=
  let cost_matrix := calculate_cost_matrix g none 0
  let optimized := reconstruct g (solve cost_matrix)
  match aff with
  | some A =>
      if 0 < affinity_weight then
        post_optimize_affinity_swaps 100 10 optimized (some A) affinity_weight
          max_cost_increase_pct 100
      else (optimized, ⟨0, 0, 0, 0, 0, 0, 0, 0, 0, 0, 0, 0, 0⟩)
  | none => (optimized, ⟨0, 0, 0, 0, 0, 0, 0, 0, 0, 0, 0, 0, 0⟩)

/-- Strategy 4, `optimize_slotting_pareto_critical` from `slotting.py`:
run the inertia-constrained two-pass solve, derive the movement ledger of
the inertia solution against the original, select the Pareto-critical
subset, and apply only those movements to the original grid.  Returns
the critical grid and the Pareto selection stats (the further comparative
statistics the source aggregates are presentation data). -/
noncomputable def optimize_slotting_pareto_critical
    (solve : (ℕ → ℕ → ℝ) → Equiv.Perm (Fin 100)) (g : GridF)
    (aff : Option (ℕ → ℕ → ℝ))
    (affinity_weight inertia_threshold critical_gain_percentage : ℝ) :
    GridF × ParetoStats :=
  let cost_matrix := calculate_cost_matrix g aff affinity_weight
  let hungarian_full := reconstruct g (solve cost_matrix)
  let im := identify_inertial_skus 100 10 g hungarian_full inertia_threshold
  let cost_matrix_pareto := apply_inertia_constraint cost_matrix im.1 1000
  let pareto_inertia := reconstruct g (solve cost_matrix_pareto)
  let movements := calculate_movement_gains 100 10 g pareto_inertia
  let cm := identify_pareto_critical_movements movements critical_gain_percentage
  (apply_critical_movements_only 100 g cm.1, cm.2)

/-- C1: whatever assignment the external solver returns, each of the
four orchestrator strategies produces a grid whose multiset of
(classification, score) pairs equals the input's — the output layout is
a permutation of the input items, with no item duplicated or lost. -/
theorem strategies_preserve_item_multiset
    (solve : (ℕ → ℕ → ℝ) → Equiv.Perm (Fin 100)) (g : GridF)
    (aff : Option (ℕ → ℕ → ℝ))
    (affinity_weight max_cost_increase_pct gain_threshold_pct
      inertia_threshold critical_gain_percentage : ℝ) :
    gridMultiset 100 (optimize_slotting solve g aff affinity_weight)
      = gridMultiset 100 g ∧
    gridMultiset 100
        (optimize_slotting_with_inertia solve g aff affinity_weight
          gain_threshold_pct).1
      = gridMultiset 100 g ∧
    gridMultiset 100
        (optimize_slotting_with_affinity_post solve g aff affinity_weight
          max_cost_increase_pct).1
      = gridMultiset 100 g ∧
    gridMultiset 100
        (optimize_slotting_pareto_critical solve g aff affinity_weight
          inertia_threshold critical_gain_percentage).1
      = gridMultiset 100 g := by
  refine ⟨reconstruct_multiset g _, reconstruct_multiset g _, ?_, ?_⟩
  · unfold optimize_slotting_with_affinity_post
    rcases aff with _ | A
    · exact reconstruct_multiset g _
    · by_cases hw : 0 < affinity_weight
      · simp only [if_pos hw]
        rw [post_optimize_multiset]
        exact reconstruct_multiset g _
      · simp only [if_neg hw]
        exact reconstruct_multiset g _
  · unfold optimize_slotting_pareto_critical
    apply apply_critical_multiset
    intro m hm
    have hmem := identify_pareto_subset _ critical_gain_percentage m hm
    exact (movement_gains_bounds 100 10 g _ m hmem).2

/-- The distance factor of a row, as it appears in
`calculate_position_cost`. -/
noncomputable def row_distance (r : ℕ) : ℝ := if r = 0 then 1 else (r : ℝ) + 1

/-- The score-dependent part of a position cost:
`score × (log10(score+1)+1)`. -/
noncomputable def score_amp (s : ℝ) : ℝ := s * calculate_importance_factor s

/-- The `calculate_position_cost` factored into the row part and the score
part. -/
theorem position_cost_factored (r : ℕ) (s : ℝ) :
    calculate_position_cost r s = row_distance r * score_amp s := by
  unfold calculate_position_cost row_distance score_amp
  ring

/-- The row distance factor is strictly increasing in the row. -/
theorem row_distance_strict_mono (r₁ r₂ : ℕ) (h : r₁ < r₂) :
    row_distance r₁ < row_distance r₂ := by
  unfold row_distance
  rcases Nat.eq_zero_or_pos r₁ with h1 | h1
  · have h2 : r₂ ≠ 0 := by omega
    rw [if_pos h1, if_neg h2]
    have : (1 : ℝ) ≤ (r₂ : ℝ) := by exact_mod_cast Nat.one_le_iff_ne_zero.mpr h2
    linarith
  · have h1' : r₁ ≠ 0 := by omega
    have h2 : r₂ ≠ 0 := by omega
    rw [if_neg h1', if_neg h2]
    have : (r₁ : ℝ) < (r₂ : ℝ) := by exact_mod_cast h
    linarith

/-- The row distance factor is at least 1. -/
theorem row_distance_ge_one (r : ℕ) : 1 ≤ row_distance r := by
  unfold row_distance
  rcases Nat.eq_zero_or_pos r with h | h
  · simp [h]
  · have h' : r ≠ 0 := by omega
    rw [if_neg h']
    have : (1 : ℝ) ≤ (r : ℝ) := by exact_mod_cast h
    linarith

/-- The amplification factor is positive on scores `≥ 1`. -/
theorem importance_factor_pos (s : ℝ) (hs : 1 ≤ s) :
    0 < calculate_importance_factor s := by
  have : 0 ≤ Real.logb 10 (s + 1) := Real.logb_nonneg (by norm_num) (by linarith)
  unfold calculate_importance_factor
  linarith

/-- The score part of the cost is strictly increasing on scores `≥ 1`. -/
theorem score_amp_strict_mono (s₁ s₂ : ℝ) (h1 : 1 ≤ s₁) (h12 : s₁ < s₂) :
    score_amp s₁ < score_amp s₂ := by
  unfold score_amp
  have hf₁ : 0 < calculate_importance_factor s₁ := importance_factor_pos s₁ h1
  have hf₁₂ : calculate_importance_factor s₁ ≤ calculate_importance_factor s₂ := by
    unfold calculate_importance_factor
    have := Real.logb_le_logb_of_le (b := 10) (x := s₁ + 1) (y := s₂ + 1)
      (by norm_num) (by linarith) (by linarith)
    linarith
  calc s₁ * calculate_importance_factor s₁
      < s₂ * calculate_importance_factor s₁ := mul_lt_mul_of_pos_right h12 hf₁
    _ ≤ s₂ * calculate_importance_factor s₂ :=
        mul_le_mul_of_nonneg_left hf₁₂ (by linarith)

/-- The total cost of an assignment `σ` (column `σ i` for row `i`)
against a 100×100 cost matrix — the objective the external solver
minimizes. -/
noncomputable def assignment_cost (C : ℕ → ℕ → ℝ) (σ : Equiv.Perm (Fin 100)) : ℝ :=
  ∑ i : Fin 100, C (i : ℕ) ((σ i : Fin 100) : ℕ)

/-- A sum over `Fin 100` split at two distinct points. -/
theorem sum_split_two (f : Fin 100 → ℝ) (a b : Fin 100) (hab : a ≠ b) :
    ∑ i : Fin 100, f i
      = f a + f b + ∑ i ∈ (Finset.univ.erase a).erase b, f i := by
  rw [← Finset.add_sum_erase _ f (Finset.mem_univ a),
    ← Finset.add_sum_erase _ f (Finset.mem_erase.mpr ⟨Ne.symm hab, Finset.mem_univ b⟩)]
  ring

/-- C8: for a 10×10 grid with importance scores in `1..100`, every
minimum-cost assignment of the full-assignment strategy's (affinity-free)
cost matrix places items monotonically: if item `a`'s score strictly
exceeds item `b`'s score, then `a`'s assigned row index is at most `b`'s
(an exchange argument: swapping the two placements would otherwise
strictly lower the assignment cost). -/
theorem full_assignment_rows_monotone (g : GridF) (σ : Equiv.Perm (Fin 100))
    (hscores : ∀ p, p < 100 → (1 : ℤ) ≤ (g p).2 ∧ (g p).2 ≤ 100)
    (hmin : ∀ τ : Equiv.Perm (Fin 100),
      assignment_cost (calculate_cost_matrix g none 0) σ
        ≤ assignment_cost (calculate_cost_matrix g none 0) τ)
    (a b : Fin 100) (hab : (g (b : ℕ)).2 < (g (a : ℕ)).2) :
    ((σ a : Fin 100) : ℕ) / 10 ≤ ((σ b : Fin 100) : ℕ) / 10 := by
  by_contra hcon
  push_neg at hcon
  have hane : a ≠ b := by
    intro h
    rw [h] at hab
    exact lt_irrefl _ hab
  have hCdef : ∀ (i j : Fin 100), calculate_cost_matrix g none 0 (i : ℕ) (j : ℕ)
      = row_distance ((j : ℕ) / 10) * score_amp ((g (i : ℕ)).2 : ℝ) := by
    intro i j
    show calculate_position_cost ((j : ℕ) / 10) ((g (i : ℕ)).2 : ℝ) = _
    exact position_cost_factored _ _
  set τ : Equiv.Perm (Fin 100) := (Equiv.swap a b).trans σ with hτ
  have hτa : τ a = σ b := by
    simp [hτ, Equiv.swap_apply_left]
  have hτb : τ b = σ a := by
    simp [hτ, Equiv.swap_apply_right]
  have hτi : ∀ i : Fin 100, i ≠ a → i ≠ b → τ i = σ i := by
    intro i hia hib
    simp [hτ, Equiv.swap_apply_of_ne_of_ne hia hib]
  have hsplitσ : assignment_cost (calculate_cost_matrix g none 0) σ
      = calculate_cost_matrix g none 0 (a : ℕ) ((σ a : Fin 100) : ℕ)
        + calculate_cost_matrix g none 0 (b : ℕ) ((σ b : Fin 100) : ℕ)
        + ∑ i ∈ (Finset.univ.erase a).erase b,
            calculate_cost_matrix g none 0 (i : ℕ) ((σ i : Fin 100) : ℕ) :=
    sum_split_two _ a b hane
  have hsplitτ : assignment_cost (calculate_cost_matrix g none 0) τ
      = calculate_cost_matrix g none 0 (a : ℕ) ((σ b : Fin 100) : ℕ)
        + calculate_cost_matrix g none 0 (b : ℕ) ((σ a : Fin 100) : ℕ)
        + ∑ i ∈ (Finset.univ.erase a).erase b,
            calculate_cost_matrix g none 0 (i : ℕ) ((σ i : Fin 100) : ℕ) := by
    have h0 : assignment_cost (calculate_cost_matrix g none 0) τ
        = calculate_cost_matrix g none 0 (a : ℕ) ((τ a : Fin 100) : ℕ)
          + calculate_cost_matrix g none 0 (b : ℕ) ((τ b : Fin 100) : ℕ)
          + ∑ i ∈ (Finset.univ.erase a).erase b,
              calculate_cost_matrix g none 0 (i : ℕ) ((τ i : Fin 100) : ℕ) :=
      sum_split_two _ a b hane
    rw [h0, hτa, hτb]
    congr 1
    apply Finset.sum_congr rfl
    intro i hi
    obtain ⟨hib, hia⟩ := Finset.mem_erase.mp hi
    rw [hτi i (Finset.mem_erase.mp hia).1 hib]
  obtain ⟨hb1, _⟩ := hscores (b : ℕ) b.isLt
  have hsb1 : (1 : ℝ) ≤ ((g (b : ℕ)).2 : ℝ) := by exact_mod_cast hb1
  have hsab : ((g (b : ℕ)).2 : ℝ) < ((g (a : ℕ)).2 : ℝ) := by exact_mod_cast hab
  have hG : score_amp ((g (b : ℕ)).2 : ℝ) < score_amp ((g (a : ℕ)).2 : ℝ) :=
    score_amp_strict_mono _ _ hsb1 hsab
  have hd : row_distance (((σ b : Fin 100) : ℕ) / 10)
      < row_distance (((σ a : Fin 100) : ℕ) / 10) :=
    row_distance_strict_mono _ _ hcon
  have hlt : assignment_cost (calculate_cost_matrix g none 0) τ
      < assignment_cost (calculate_cost_matrix g none 0) σ := by
    rw [hsplitσ, hsplitτ, hCdef, hCdef, hCdef, hCdef]
    have hprod : 0 < (row_distance (((σ a : Fin 100) : ℕ) / 10)
          - row_distance (((σ b : Fin 100) : ℕ) / 10))
        * (score_amp ((g (a : ℕ)).2 : ℝ) - score_amp ((g (b : ℕ)).2 : ℝ)) :=
      mul_pos (sub_pos.mpr hd) (sub_pos.mpr hG)
    nlinarith [hprod]
  exact absurd (hmin τ) (not_le.mpr hlt)

/-- A concrete grid for exercising the monotonicity of minimum-cost
assignments: score 100 at position 0, score 1 everywhere else. -/
def witness_grid : GridF := fun p => ("A", if p = 0 then 100 else 1)

/-- On `witness_grid`, any assignment's cost is an affine function of
the distance factor given to item 0, so the identity assignment (which
keeps item 0 in row 0) is minimum-cost. -/
theorem witness_grid_identity_min :
    ∀ τ : Equiv.Perm (Fin 100),
      assignment_cost (calculate_cost_matrix witness_grid none 0) 1
        ≤ assignment_cost (calculate_cost_matrix witness_grid none 0) τ := by
  have hCdef : ∀ (i j : Fin 100),
      calculate_cost_matrix witness_grid none 0 (i : ℕ) (j : ℕ)
        = row_distance ((j : ℕ) / 10) * score_amp ((witness_grid (i : ℕ)).2 : ℝ) := by
    intro i j
    show calculate_position_cost ((j : ℕ) / 10) ((witness_grid (i : ℕ)).2 : ℝ) = _
    exact position_cost_factored _ _
  have hval0 : ((witness_grid ((0 : Fin 100) : ℕ)).2 : ℝ) = 100 := by
    simp [witness_grid]
  have hval1 : ∀ i : Fin 100, i ≠ 0 → ((witness_grid (i : ℕ)).2 : ℝ) = 1 := by
    intro i hi
    have : (i : ℕ) ≠ 0 := by
      intro h
      exact hi (Fin.ext h)
    simp [witness_grid, this]
  have hcost : ∀ ρ : Equiv.Perm (Fin 100),
      assignment_cost (calculate_cost_matrix witness_grid none 0) ρ
        = row_distance (((ρ 0 : Fin 100) : ℕ) / 10) * score_amp 100
          + ((∑ j : Fin 100, row_distance ((j : ℕ) / 10))
              - row_distance (((ρ 0 : Fin 100) : ℕ) / 10)) * score_amp 1 := by
    intro ρ
    have h0 : assignment_cost (calculate_cost_matrix witness_grid none 0) ρ
        = calculate_cost_matrix witness_grid none 0 ((0 : Fin 100) : ℕ)
            ((ρ 0 : Fin 100) : ℕ)
          + ∑ i ∈ (Finset.univ : Finset (Fin 100)).erase 0,
              calculate_cost_matrix witness_grid none 0 (i : ℕ) ((ρ i : Fin 100) : ℕ) :=
      (Finset.add_sum_erase _ _ (Finset.mem_univ 0)).symm
    have h1 : ∑ i ∈ (Finset.univ : Finset (Fin 100)).erase 0,
        calculate_cost_matrix witness_grid none 0 (i : ℕ) ((ρ i : Fin 100) : ℕ)
        = (∑ i ∈ (Finset.univ : Finset (Fin 100)).erase 0,
            row_distance (((ρ i : Fin 100) : ℕ) / 10)) * score_amp 1 := by
      rw [Finset.sum_mul]
      apply Finset.sum_congr rfl
      intro i hi
      rw [hCdef, hval1 i (Finset.mem_erase.mp hi).1]
    have h2 : row_distance (((ρ 0 : Fin 100) : ℕ) / 10)
        + ∑ i ∈ (Finset.univ : Finset (Fin 100)).erase 0,
            row_distance (((ρ i : Fin 100) : ℕ) / 10)
        = ∑ j : Fin 100, row_distance ((j : ℕ) / 10) := by
      rw [Finset.add_sum_erase _ (fun i : Fin 100 =>
        row_distance (((ρ i : Fin 100) : ℕ) / 10)) (Finset.mem_univ 0)]
      exact Equiv.sum_comp ρ (fun j : Fin 100 => row_distance ((j : ℕ) / 10))
    have h3 : ∑ i ∈ (Finset.univ : Finset (Fin 100)).erase 0,
        row_distance (((ρ i : Fin 100) : ℕ) / 10)
        = (∑ j : Fin 100, row_distance ((j : ℕ) / 10))
          - row_distance (((ρ 0 : Fin 100) : ℕ) / 10) := by
      linarith [h2]
    rw [h0, h1, hCdef, hval0, h3]
  intro τ
  rw [hcost 1, hcost τ]
  have hid : (((1 : Equiv.Perm (Fin 100)) 0 : Fin 100) : ℕ) / 10 = 0 := rfl
  rw [hid]
  have hrd0 : row_distance 0 = 1 := by simp [row_distance]
  rw [hrd0]
  have hrdτ : 1 ≤ row_distance (((τ 0 : Fin 100) : ℕ) / 10) := row_distance_ge_one _
  have hG : score_amp 1 ≤ score_amp 100 :=
    le_of_lt (score_amp_strict_mono 1 100 le_rfl (by norm_num))
  nlinarith [mul_nonneg (sub_nonneg.mpr hrdτ) (sub_nonneg.mpr hG)]

/-- Witness for C8: on `witness_grid` the identity assignment is
minimum-cost, and item 0 (score 100) is placed in a row no deeper than
item 1 (score 1). -/
theorem full_assignment_rows_monotone_witness :
    (((1 : Equiv.Perm (Fin 100)) (0 : Fin 100) : Fin 100) : ℕ) / 10
      ≤ (((1 : Equiv.Perm (Fin 100)) (1 : Fin 100) : Fin 100) : ℕ) / 10 :=
  full_assignment_rows_monotone witness_grid 1
    (fun p _ => by
      by_cases h : p = 0 <;> simp [witness_grid, h])
    witness_grid_identity_min 0 1
    (by
      have h1 : ((1 : Fin 100) : ℕ) = 1 := rfl
      have h0 : ((0 : Fin 100) : ℕ) = 0 := rfl
      rw [h1, h0]
      norm_num [witness_grid])
